import Mathlib

/-!
Verification development for the blockview on-chain data interpretation
engine: numeric/base/unit converters, the hex-to-decimal formatter, the
ASCII display aid, the block-timestamp bisection search, the ABI call
decoder's selector matching, and the bytecode disassembler.

The definitions mirror the TypeScript sources (with JavaScript primitive
semantics such as `BigInt(string)` modelled explicitly); functions whose
implementation lives in third-party dependencies (ethers, sevm) rather
than in this repository's sources are modelled from the specification and
marked as such in their doc comments.

Loops are embedded as fuel-indexed structural recursions; in each case the
fuel is the loop variant taken from the code (interval width for the
bisection, input length for the disassembler, the number itself for digit
expansion), and a fuel-irrelevance or sufficiency lemma shows the cutoff
branch is never reached, so the embedding computes exactly what the loop
computes.
-/

namespace BlockView

/-! ## Positional digit machinery shared by all converters -/

/-- Value of a little-endian digit list in base `b`. -/
def ofDigitsLE (b : ℕ) : List ℕ → ℕ
  | [] => 0
  | d :: ds => d + b * ofDigitsLE b ds

/-- Fuel-driven little-endian digit expansion of `n` in base `b`; fuel
equal to the starting number always suffices because the argument is
divided by `b ≥ 2` at each step.  Returns `[]` for `0`. -/
def toDigitsLEGo (b : ℕ) : ℕ → ℕ → List ℕ
  | 0, _ => []
  | fuel + 1, n => if n = 0 then [] else n % b :: toDigitsLEGo b fuel (n / b)

/-- Little-endian base-`b` digits of `n` (empty for `0`). -/
def toDigitsLE (b n : ℕ) : List ℕ := toDigitsLEGo b n n

/-- Most-significant-digit-first value of a digit list, as computed by the
usual left fold `acc * b + d` (this is how `BigInt` parses digit strings). -/
def valOfDigitsMSB (b : ℕ) (ds : List ℕ) : ℕ := ds.foldl (fun a d => a * b + d) 0

/-- Lower-case digit character for a digit below 16, as produced by
JavaScript `BigInt.prototype.toString(radix)`. -/
def digitChar (d : ℕ) : Char :=
  if d < 10 then Char.ofNat (48 + d) else Char.ofNat (87 + d)

/-- Numeric value of a hexadecimal digit character (`0-9`, `a-f`, `A-F`). -/
def hexCharVal? (c : Char) : Option ℕ :=
  if 48 ≤ c.toNat ∧ c.toNat ≤ 57 then some (c.toNat - 48)
  else if 97 ≤ c.toNat ∧ c.toNat ≤ 102 then some (c.toNat - 87)
  else if 65 ≤ c.toNat ∧ c.toNat ≤ 70 then some (c.toNat - 55)
  else none

/-- Hexadecimal digit value with default `0` for non-digits. -/
def hexCharValD (c : Char) : ℕ := (hexCharVal? c).getD 0

/-- Recognizer for the character class `[0-9a-fA-F]`. -/
def isHexChar (c : Char) : Bool := (hexCharVal? c).isSome

/-- Whether `c` is a valid digit character in base `b ≤ 16`. -/
def baseCharOk (b : ℕ) (c : Char) : Bool :=
  match hexCharVal? c with
  | some d => decide (d < b)
  | none => false

/-- Recognizer for the character class `[0-9]` (the regex `\d`). -/
def isDecChar (c : Char) : Bool := baseCharOk 10 c

/-- Value of a digit-character list read most-significant first. -/
def digitsVal (b : ℕ) (l : List Char) : ℕ := valOfDigitsMSB b (l.map hexCharValD)

/-- Parse a non-empty all-digit character list in base `b`; `none` on an
empty list or any character outside the base's digit alphabet. -/
def parseDigits (b : ℕ) (l : List Char) : Option ℕ :=
  if !l.isEmpty && l.all (baseCharOk b) then some (digitsVal b l) else none

/-- Base-`b` rendering of `n` as produced by `BigInt.prototype.toString`:
minimal lower-case digits, `"0"` for zero. -/
def renderNat (b n : ℕ) : List Char :=
  if n = 0 then ['0'] else (toDigitsLE b n).reverse.map digitChar

/-! ## JavaScript `BigInt(string)` (ECMA-262 StringToBigInt) -/

/-- The ECMAScript WhiteSpace and LineTerminator code points trimmed by
`StringToBigInt`. -/
def jsWhite (c : Char) : Bool :=
  decide (c.toNat = 9 ∨ c.toNat = 10 ∨ c.toNat = 11 ∨ c.toNat = 12 ∨
    c.toNat = 13 ∨ c.toNat = 32 ∨ c.toNat = 160 ∨ c.toNat = 5760 ∨
    (8192 ≤ c.toNat ∧ c.toNat ≤ 8202) ∨ c.toNat = 8232 ∨ c.toNat = 8233 ∨
    c.toNat = 8239 ∨ c.toNat = 8287 ∨ c.toNat = 12288 ∨ c.toNat = 65279)

/-- Strip leading and trailing JavaScript whitespace. -/
def jsTrim (l : List Char) : List Char :=
  ((l.dropWhile jsWhite).reverse.dropWhile jsWhite).reverse

/-- `StringToBigInt` continuation after a leading `0`: a radix prefix
(`x`/`X` hex, `o`/`O` octal, `b`/`B` binary) introduces an unsigned digit
string; anything else re-reads the whole literal as decimal digits. -/
def jsParseTail : List Char → Option ℤ
  | [] => some 0
  | c2 :: rest2 =>
    if c2 = 'x' ∨ c2 = 'X' then (parseDigits 16 rest2).map (fun n => (n : ℤ))
    else if c2 = 'o' ∨ c2 = 'O' then (parseDigits 8 rest2).map (fun n => (n : ℤ))
    else if c2 = 'b' ∨ c2 = 'B' then (parseDigits 2 rest2).map (fun n => (n : ℤ))
    else (parseDigits 10 ('0' :: c2 :: rest2)).map (fun n => (n : ℤ))

/-- `StringToBigInt` after whitespace trimming: empty means `0`; a leading
`0` may introduce a radix prefix; otherwise an optional sign followed by
decimal digits. -/
def jsParseTrimmed : List Char → Option ℤ
  | [] => some 0
  | c :: rest =>
    if c = '+' then (parseDigits 10 rest).map (fun n => (n : ℤ))
    else if c = '-' then (parseDigits 10 rest).map (fun n => -(n : ℤ))
    else if c = '0' then jsParseTail rest
    else (parseDigits 10 (c :: rest)).map (fun n => (n : ℤ))

/-- JavaScript `BigInt(string)` on a character list: `none` models a thrown
`SyntaxError`. -/
def jsStringToBigIntL (l : List Char) : Option ℤ := jsParseTrimmed (jsTrim l)

/-- JavaScript `BigInt(string)`. -/
def jsStringToBigInt (s : String) : Option ℤ := jsStringToBigIntL s.toList

/-- Strip one leading `0x` (lower-case only, as `startsWith('0x')` does). -/
def dropHex0x (l : List Char) : List Char :=
  match l with
  | c1 :: c2 :: rest => if c1 = '0' ∧ c2 = 'x' then rest else l
  | _ => l

/-- Decimal string of a natural number (`BigInt.prototype.toString(10)`). -/
def natDecStr (n : ℕ) : String := String.mk (renderNat 10 n)

/-- Decimal string of an integer (`BigInt.prototype.toString(10)`). -/
def intDecStr (n : ℤ) : String :=
  if n < 0 then String.mk ('-' :: renderNat 10 (-n).toNat) else natDecStr n.toNat

/-! ## `hexToDecimal` (src/lib/format.ts) -/

/-- `hexToDecimal` from `src/lib/format.ts`: returns `"0"` for `""` and
`"0x"`, otherwise strips an optional `0x` prefix, converts through
`BigInt('0x' + cleanHex)` and renders in decimal; if the conversion throws,
the original input string is returned unchanged. -/
def hexToDecimal (s : String) : String :=
  if s = "" ∨ s = "0x" then "0"
  else
    match jsStringToBigIntL ('0' :: 'x' :: dropHex0x s.toList) with
    | some n => intDecStr n
    | none => s

/-! ## Hex/decimal/binary converter (src/components/HexConverter.tsx) -/

/-- The three bases of the converter. -/
inductive NumBase
  | hex
  | dec
  | bin
deriving DecidableEq

/-- `handleHexChange`: strip an optional `0x`, reject the empty remainder,
validate against `[0-9a-fA-F]*`, then render the value in decimal and in
binary.  `none` models the cleared output fields of the error path. -/
def handleHexChange (value : String) : Option (String × String) :=
  let clean := dropHex0x value.toList
  if clean.isEmpty then none
  else if clean.all isHexChar then
    some (natDecStr (digitsVal 16 clean), String.mk (renderNat 2 (digitsVal 16 clean)))
  else none

/-- `handleDecimalChange`: validate against `\d+`, then render the value as
`"0x" + hex` and in binary. -/
def handleDecimalChange (value : String) : Option (String × String) :=
  let l := value.toList
  if l.isEmpty then none
  else if l.all isDecChar then
    some (String.mk ('0' :: 'x' :: renderNat 16 (digitsVal 10 l)),
      String.mk (renderNat 2 (digitsVal 10 l)))
  else none

/-- Recognizer for the character class `[01]`. -/
def isBinChar (c : Char) : Bool := c == '0' || c == '1'

/-- `handleBinaryChange`: validate against `[01]+`, then render the value as
`"0x" + hex` and in decimal. -/
def handleBinaryChange (value : String) : Option (String × String) :=
  let l := value.toList
  if l.isEmpty then none
  else if l.all isBinChar then
    some (String.mk ('0' :: 'x' :: renderNat 16 (digitsVal 2 l)), natDecStr (digitsVal 2 l))
  else none

/-- `convertBase v b1 b2`: run the handler for base `b1` on `v` and read the
output field for base `b2` (the input field itself keeps `v` verbatim). -/
def convertBase (v : String) : NumBase → NumBase → Option String
  | .hex, b2 => (handleHexChange v).map (fun p =>
      match b2 with
      | .hex => v
      | .dec => p.1
      | .bin => p.2)
  | .dec, b2 => (handleDecimalChange v).map (fun p =>
      match b2 with
      | .hex => p.1
      | .dec => v
      | .bin => p.2)
  | .bin, b2 => (handleBinaryChange v).map (fun p =>
      match b2 with
      | .hex => p.1
      | .bin => v
      | .dec => p.2)

/-- The numeric value each handler accepts in base `b` (same validation as
the corresponding handler). -/
def parseBase : NumBase → String → Option ℕ
  | .hex, v =>
    let clean := dropHex0x v.toList
    if !clean.isEmpty && clean.all isHexChar then some (digitsVal 16 clean) else none
  | .dec, v =>
    let l := v.toList
    if !l.isEmpty && l.all isDecChar then some (digitsVal 10 l) else none
  | .bin, v =>
    let l := v.toList
    if !l.isEmpty && l.all isBinChar then some (digitsVal 2 l) else none

/-- The canonical rendering each handler produces for base `b`: `0x`-prefixed
lower-case hex, or a plain digit string without leading zeros. -/
def renderBase : NumBase → ℕ → String
  | .hex, n => String.mk ('0' :: 'x' :: renderNat 16 n)
  | .dec, n => natDecStr n
  | .bin, n => String.mk (renderNat 2 n)

/-- Canonicalization through the converter's own value/render pair. -/
def normalizeBase (b : NumBase) (v : String) : Option String :=
  (parseBase b v).map (renderBase b)

/-- The normalization described by the specification sentence for the base
round-trip: strip a redundant `0x` prefix and leading zeros. -/
def specNormalize (v : String) : String :=
  let l := (dropHex0x v.toList).dropWhile (fun c => c == '0')
  if l.isEmpty then "0" else String.mk l

/-! ## ASCII display aid (src/components/HexConverter.tsx, handleHexChange) -/

/-- Display character of one byte: itself inside the printable range
`[32, 126]`, the dot `.` (code 46) otherwise. -/
def asciiDisplayChar (b : ℕ) : Char :=
  if 32 ≤ b ∧ b ≤ 126 then Char.ofNat b else Char.ofNat 46

/-- The ASCII loop of `handleHexChange`: consume the hex characters two at a
time (`parseInt(cleanHex.substr(i, 2), 16)`), emitting one display character
per byte; a trailing lone character is read as a one-digit hex value, exactly
as `substr` yields it. -/
def bytesToAsciiL : List Char → List Char
  | [] => []
  | c1 :: c2 :: rest =>
    asciiDisplayChar (16 * hexCharValD c1 + hexCharValD c2) :: bytesToAsciiL rest
  | [c1] => [asciiDisplayChar (hexCharValD c1)]

/-- `bytesToAscii` over a hex string (optional `0x` prefix stripped first,
as in the surrounding handler). -/
def bytesToAscii (s : String) : String := String.mk (bytesToAsciiL (dropHex0x s.toList))

/-- Two lower-case hex characters of one byte. -/
def hexEncodeByte (b : ℕ) : List Char := [digitChar (b / 16), digitChar (b % 16)]

/-- Hex string of a byte list. -/
def hexEncode (bs : List ℕ) : List Char := (bs.map hexEncodeByte).flatten

/-! ## Unit converter (src/components/UnitConverter.tsx) -/

/-- The three units of the converter. -/
inductive EthUnit
  | wei
  | gwei
  | ether
deriving DecidableEq

/-- Fixed-point decimal places of each unit (wei is the base unit). -/
def unitDecimals : EthUnit → ℕ
  | .wei => 0
  | .gwei => 9
  | .ether => 18

/-- Modelled from the spec: the fixed-point literal parser of
`convertValueUnits` (the source delegates to `ethers.parseUnits`, a
dependency whose code is not part of this repository).  Accepts digit
strings with at most one decimal point, at least one digit overall, and no
more fractional digits than the unit represents exactly; yields the value in
wei. -/
def parseUnitL (d : ℕ) (l : List Char) : Option ℕ :=
  let ip := l.takeWhile (fun c => c != '.')
  let rest := l.dropWhile (fun c => c != '.')
  let fp := rest.drop 1
  if ip.all isDecChar && fp.all isDecChar &&
      (!ip.isEmpty || !fp.isEmpty) && decide (fp.length ≤ d) then
    some (digitsVal 10 ip * 10 ^ d + digitsVal 10 fp * 10 ^ (d - fp.length))
  else none

/-- Modelled from the spec: the per-unit accepted alphabet of
`convertValueUnits` — digits only for wei, digits and at most one decimal
point for gwei/ether (§4.3). -/
def parseUnit : EthUnit → String → Option ℕ
  | .wei, s =>
    let l := s.toList
    if !l.isEmpty && l.all isDecChar then some (digitsVal 10 l) else none
  | .gwei, s => parseUnitL 9 s.toList
  | .ether, s => parseUnitL 18 s.toList

/-- Fractional digit characters of `r` (`0 < r < 10^d`): left-padded to `d`
places, trailing zeros stripped. -/
def fracRender (d r : ℕ) : List Char :=
  let ds := toDigitsLE 10 r
  let trimmed := ds.dropWhile (fun x => x == 0)
  (List.replicate (d - ds.length) 0 ++ trimmed.reverse).map digitChar

/-- Modelled from the spec: exact base-10^18 fixed-point rendering of a wei
value in a unit with `d` decimal places — integer part, then a fractional
part only when non-zero, with trailing zeros stripped. -/
def formatUnitL (d n : ℕ) : List Char :=
  if n % 10 ^ d = 0 then renderNat 10 (n / 10 ^ d)
  else renderNat 10 (n / 10 ^ d) ++ '.' :: fracRender d (n % 10 ^ d)

/-- Rendering of a wei value in unit `u`. -/
def formatUnit (u : EthUnit) (n : ℕ) : String :=
  String.mk (formatUnitL (unitDecimals u) n)

/-- Modelled from the spec: `convertValueUnits(value, fromUnit, toUnit)`
with exact fixed-point arithmetic; `none` models the
`InvalidNumericLiteral` failure. -/
def convertValueUnits (v : String) (u1 u2 : EthUnit) : Option String :=
  (parseUnit u1 v).map (formatUnit u2)

/-- `handleWeiChange` from `src/components/UnitConverter.tsx`: the wei field
is parsed with `BigInt(value || "0")`; `none` models the caught exception
that clears the other fields.  (The accepted value is then formatted into
the gwei/ether fields.) -/
def handleWeiChange (value : String) : Option ℤ :=
  jsStringToBigInt (if value = "" then "0" else value)

/-! ## Block timestamp search (src/components/BlockTimeConverter.tsx) -/

/-- The two block fields the search reads. -/
structure Block where
  number : ℤ
  timestamp : ℤ
deriving DecidableEq

/-- `Math.floor((low + high) / 2)` on exact integers. -/
def jmid (low high : ℤ) : ℤ := Int.fdiv (low + high) 2

/-- Width of the search interval `[low, high]`; the loop variant. -/
def intervalFuel (low high : ℤ) : ℕ := (high + 1 - low).toNat

/-- The `while (low <= high)` bisection loop of `handleTimestampChange`,
fuel-indexed; returns the block found by an exact timestamp hit (the
`found` sentinel), the final value of `high`, and the number of iterations
executed.  A `null` block moves `high` to `mid - 1` and continues. -/
def bisectAux (fetch : ℤ → Option Block) (t : ℤ) : ℕ → ℤ → ℤ → Option Block × ℤ × ℕ
  | 0, _, high => (none, high, 0)
  | fuel + 1, low, high =>
    if low ≤ high then
      let mid := jmid low high
      match fetch mid with
      | none =>
        let r := bisectAux fetch t fuel low (mid - 1)
        (r.1, r.2.1, r.2.2 + 1)
      | some b =>
        if b.timestamp = t then (some b, high, 1)
        else if b.timestamp < t then
          let r := bisectAux fetch t fuel (mid + 1) high
          (r.1, r.2.1, r.2.2 + 1)
        else
          let r := bisectAux fetch t fuel low (mid - 1)
          (r.1, r.2.1, r.2.2 + 1)
    else (none, high, 0)

/-- The bisection loop started with its exact variant as fuel. -/
def bisect (fetch : ℤ → Option Block) (t low high : ℤ) : Option Block × ℤ × ℕ :=
  bisectAux fetch t (intervalFuel low high) low high

/-- The post-loop floor fallback of `handleTimestampChange`: if no exact
hit and `high >= 0`, refetch block `high` and accept it when its timestamp
does not exceed the target. -/
def floorFallback (fetch : ℤ → Option Block) (t high : ℤ) : Option ℤ :=
  if 0 ≤ high then
    match fetch high with
    | some b => if b.timestamp ≤ t then some b.number else none
    | none => none
  else none

/-- `handleTimestampChange`'s search over `[0, latest]`: the loop, then the
floor fallback.  `none` models the `found === -1` empty result. -/
def blockNumberForTimestamp (fetch : ℤ → Option Block) (t latest : ℤ) : Option ℤ :=
  match (bisect fetch t 0 latest).1 with
  | some b => some b.number
  | none => floorFallback fetch t (bisect fetch t 0 latest).2.1

/-- A fully populated chain of `N + 1` blocks whose block `i` has timestamp
`f i`. -/
def honestChain (f : ℤ → ℤ) (N : ℤ) : ℤ → Option Block :=
  fun i => if 0 ≤ i ∧ i ≤ N then some (Block.mk i (f i)) else none

/-- The synthetic timestamp sequence `[(0,100),(1,100),(2,150),(3,200)]` of
the specification's example. -/
def exTs : ℤ → ℤ := fun i => if i ≤ 1 then 100 else if i = 2 then 150 else 200

/-- The bisection loop over a fetch callback that can fail (the promise
rejecting); an error aborts the loop immediately, as an `await` throw
does. -/
def bisectAuxE {ε : Type} (fetch : ℤ → Except ε (Option Block)) (t : ℤ) :
    ℕ → ℤ → ℤ → Except ε (Option Block × ℤ)
  | 0, _, high => .ok (none, high)
  | fuel + 1, low, high =>
    if low ≤ high then
      let mid := jmid low high
      match fetch mid with
      | .error e => .error e
      | .ok none => bisectAuxE fetch t fuel low (mid - 1)
      | .ok (some b) =>
        if b.timestamp = t then .ok (some b, high)
        else if b.timestamp < t then bisectAuxE fetch t fuel (mid + 1) high
        else bisectAuxE fetch t fuel low (mid - 1)
    else .ok (none, high)

/-- The body of the `try` block of `handleTimestampChange`: obtain the
latest block number, run the bisection, then the floor fallback; any fetch
failure propagates out of the body. -/
def searchBody {ε : Type} (fetch : ℤ → Except ε (Option Block))
    (getLatest : Except ε ℤ) (t : ℤ) : Except ε (Option ℤ) :=
  match getLatest with
  | .error e => .error e
  | .ok latest =>
    match bisectAuxE fetch t (intervalFuel 0 latest) 0 latest with
    | .error e => .error e
    | .ok (some b, _) => .ok (some b.number)
    | .ok (none, high) =>
      if 0 ≤ high then
        match fetch high with
        | .error e => .error e
        | .ok (some b) => .ok (if b.timestamp ≤ t then some b.number else none)
        | .ok none => .ok none
      else .ok none

/-- `handleTimestampChange` as observed through the block-number field: the
`try` body's result, with the surrounding `catch` mapping any error to the
same empty field (`setBlockNumber("")`) the no-match path produces. -/
def handleTimestampChange {ε : Type} (fetch : ℤ → Except ε (Option Block))
    (getLatest : Except ε ℤ) (t : ℤ) : Option ℤ :=
  match searchBody fetch getLatest t with
  | .ok r => r
  | .error _ => none

/-! ## ABI call decoder (src/components/transaction/TransactionDecoder.tsx) -/

/-- Fragment kinds of an interface description. -/
inductive FragKind
  | fn
  | ev
deriving DecidableEq

/-- An ABI fragment: kind, name, and canonical parameter type strings. -/
structure AbiFragment where
  kind : FragKind
  name : String
  inputs : List String
deriving DecidableEq

/-- Canonical signature `name(type1,type2,...)`. -/
def canonicalSig (f : AbiFragment) : String :=
  f.name ++ "(" ++ String.intercalate "," f.inputs ++ ")"

/-- Decoded parameter values (tagged union of the modelled elementary
types). -/
inductive AbiValue
  | uintV (n : ℕ)
  | addressV (n : ℕ)
  | boolV (b : Bool)
  | bytesV (bs : List ℕ)
deriving DecidableEq

/-- Result of decoding calldata against a fragment set. -/
inductive DecodeCallResult
  | noMatchingSelector
  | truncatedData
  | ambiguous (frags : List AbiFragment)
  | decoded (frag : AbiFragment) (args : List AbiValue)
deriving DecidableEq

/-- Big-endian byte value. -/
def beVal (w : List ℕ) : ℕ := valOfDigitsMSB 256 w

/-- Decode one 32-byte head word at an elementary type. -/
def decodeWord (t : String) (w : List ℕ) : AbiValue :=
  if t = "uint256" then .uintV (beVal w)
  else if t = "address" then .addressV (beVal (w.drop 12))
  else if t = "bool" then .boolV (beVal w != 0)
  else .bytesV w

/-- The `i`-th 32-byte word of the argument body, or `none` when the body is
too short (`TruncatedData`). -/
def word32 (body : List ℕ) (i : ℕ) : Option (List ℕ) :=
  if (i + 1) * 32 ≤ body.length then some ((body.drop (i * 32)).take 32) else none

/-- Decode the static head words in declaration order. -/
def decodeStaticArgs : List String → List ℕ → ℕ → Option (List AbiValue)
  | [], _, _ => some []
  | t :: ts, body, i =>
    match word32 body i with
    | none => none
    | some w => (decodeStaticArgs ts body (i + 1)).map (fun args => decodeWord t w :: args)

/-- The 4-byte selector of the calldata. -/
def callSelector (calldata : List ℕ) : List ℕ := calldata.take 4

/-- The fragment's selector under the injected signature hash (keccak-256
truncated to 4 bytes; the hash itself is an external primitive and is
injected). -/
def selectorBytes (hash : String → List ℕ) (f : AbiFragment) : List ℕ :=
  (hash (canonicalSig f)).take 4

/-- Every function fragment whose selector matches the calldata's. -/
def matchingFragments (hash : String → List ℕ) (frags : List AbiFragment)
    (calldata : List ℕ) : List AbiFragment :=
  frags.filter (fun f => f.kind == FragKind.fn && selectorBytes hash f == callSelector calldata)

/-- Modelled from the spec: `decodeCall` of §4.1 — the selector matching and
collision policy of the ABI Decoder (the source delegates the matching to
`ethers`' `Interface.parseTransaction`, a dependency whose code is not part
of this repository).  Take the first 4 bytes as the selector; no matching
function fragment fails with `NoMatchingSelector`; two or more matching
fragments (a hash collision) are all surfaced as `ambiguous`; a unique
match decodes the remaining bytes (elementary static types modelled; the
dynamic tail rules decide no claim and are out of the modelled scope). -/
def decodeCall (hash : String → List ℕ) (frags : List AbiFragment)
    (calldata : List ℕ) : DecodeCallResult :=
  if calldata.length < 4 then .truncatedData
  else
    match matchingFragments hash frags calldata with
    | [] => .noMatchingSelector
    | [f] =>
      match decodeStaticArgs f.inputs (calldata.drop 4) 0 with
      | none => .truncatedData
      | some args => .decoded f args
    | ms => .ambiguous ms

/-! ## Bytecode disassembler (src/components/address/AddressType.tsx) -/

/-- One disassembled instruction: byte offset, opcode byte, operand bytes
(zero-padded to the declared width), and the count of input bytes the
instruction actually consumed. -/
structure EvmOp where
  offset : ℕ
  opcode : ℕ
  operand : List ℕ
  consumed : ℕ
deriving DecidableEq

/-- Declared operand width: `PUSH1..PUSH32` are opcodes `0x60..0x7f` and
carry `opcode - 0x5f` immediate bytes; every other opcode carries none. -/
def pushDataLen (b : ℕ) : ℕ := if 96 ≤ b ∧ b ≤ 127 then b - 95 else 0

/-- Modelled from the spec: the disassembly walk of §4.2 (the source
delegates to `sevm`'s `contract.opcodes()`, a dependency whose code is not
part of this repository).  Walk left to right; `PUSH1..PUSH32` consume their
trailing immediate bytes, zero-padded when truncated at the end of the
buffer, and the instruction is still emitted. -/
def disassembleGo : ℕ → List ℕ → ℕ → List EvmOp
  | 0, _, _ => []
  | _ + 1, [], _ => []
  | fuel + 1, b :: rest, pc =>
    let n := pushDataLen b
    let taken := rest.take n
    EvmOp.mk pc b (taken ++ List.replicate (n - taken.length) 0) (1 + taken.length)
      :: disassembleGo fuel (rest.drop n) (pc + 1 + taken.length)

/-- Disassemble a byte buffer (fuel equal to the length always suffices
since every step consumes at least one byte). -/
def disassemble (code : List ℕ) : List EvmOp := disassembleGo code.length code 0

/-! ## Lemmas: digit machinery -/

theorem ofDigitsLE_toDigitsLEGo (b : ℕ) (hb : 2 ≤ b) :
    ∀ fuel n, n ≤ fuel → ofDigitsLE b (toDigitsLEGo b fuel n) = n := by
  intro fuel
  induction fuel with
  | zero => intro n hn; interval_cases n; simp [toDigitsLEGo, ofDigitsLE]
  | succ f ih =>
    intro n hn
    by_cases h0 : n = 0
    · subst h0; simp [toDigitsLEGo, ofDigitsLE]
    · have hdiv : n / b < n := Nat.div_lt_self (Nat.pos_of_ne_zero h0) (by omega)
      simp only [toDigitsLEGo, if_neg h0, ofDigitsLE]
      rw [ih (n / b) (by omega)]
      have := Nat.mod_add_div n b
      omega

theorem ofDigitsLE_toDigitsLE (b : ℕ) (hb : 2 ≤ b) (n : ℕ) :
    ofDigitsLE b (toDigitsLE b n) = n :=
  ofDigitsLE_toDigitsLEGo b hb n n (le_refl n)

theorem toDigitsLEGo_lt (b : ℕ) (hb : 0 < b) :
    ∀ fuel n d, d ∈ toDigitsLEGo b fuel n → d < b := by
  intro fuel
  induction fuel with
  | zero => intro n d h; simp [toDigitsLEGo] at h
  | succ f ih =>
    intro n d h
    by_cases h0 : n = 0
    · subst h0; simp [toDigitsLEGo] at h
    · simp only [toDigitsLEGo, if_neg h0, List.mem_cons] at h
      rcases h with h | h
      · subst h; exact Nat.mod_lt _ hb
      · exact ih _ _ h

theorem toDigitsLE_lt (b : ℕ) (hb : 0 < b) (n d : ℕ) (h : d ∈ toDigitsLE b n) :
    d < b := toDigitsLEGo_lt b hb n n d h

theorem toDigitsLEGo_length (b : ℕ) (hb : 2 ≤ b) :
    ∀ fuel n k, n < b ^ k → (toDigitsLEGo b fuel n).length ≤ k := by
  intro fuel
  induction fuel with
  | zero => intro n k _; simp [toDigitsLEGo]
  | succ f ih =>
    intro n k hk
    by_cases h0 : n = 0
    · subst h0; simp [toDigitsLEGo]
    · have hkpos : k ≠ 0 := by
        rintro rfl
        simp only [pow_zero] at hk
        omega
      rcases Nat.exists_eq_succ_of_ne_zero hkpos with ⟨k1, rfl⟩
      simp only [toDigitsLEGo, if_neg h0, List.length_cons]
      have : n / b < b ^ k1 := by
        rw [Nat.div_lt_iff_lt_mul (by omega)]
        calc n < b ^ (k1 + 1) := hk
        _ = b ^ k1 * b := by ring
      exact Nat.succ_le_succ (ih _ _ this)

theorem toDigitsLE_length (b : ℕ) (hb : 2 ≤ b) (n k : ℕ) (h : n < b ^ k) :
    (toDigitsLE b n).length ≤ k := toDigitsLEGo_length b hb n n k h

theorem toDigitsLE_ne_nil (b n : ℕ) (h0 : n ≠ 0) : toDigitsLE b n ≠ [] := by
  rcases n with _ | m
  · omega
  · simp [toDigitsLE, toDigitsLEGo, h0]

theorem ofDigitsLE_append (b : ℕ) (l1 l2 : List ℕ) :
    ofDigitsLE b (l1 ++ l2) = ofDigitsLE b l1 + b ^ l1.length * ofDigitsLE b l2 := by
  induction l1 with
  | nil => simp [ofDigitsLE]
  | cons d ds ih =>
    simp only [List.cons_append, ofDigitsLE, List.length_cons, List.append_eq, ih]
    ring

theorem ofDigitsLE_replicate_zero (b k : ℕ) :
    ofDigitsLE b (List.replicate k 0) = 0 := by
  induction k with
  | zero => simp [ofDigitsLE]
  | succ m ih => simp [List.replicate, ofDigitsLE, ih]

theorem foldl_digits_eq (b : ℕ) (ds : List ℕ) :
    ∀ a, ds.foldl (fun a d => a * b + d) a
      = a * b ^ ds.length + ofDigitsLE b ds.reverse := by
  induction ds with
  | nil => intro a; simp [ofDigitsLE]
  | cons d tl ih =>
    intro a
    simp only [List.foldl_cons, ih, List.reverse_cons, ofDigitsLE_append,
      List.length_cons, List.length_reverse, ofDigitsLE]
    ring

theorem valOfDigitsMSB_eq (b : ℕ) (ds : List ℕ) :
    valOfDigitsMSB b ds = ofDigitsLE b ds.reverse := by
  simpa [valOfDigitsMSB] using foldl_digits_eq b ds 0

theorem valOfDigitsMSB_toDigits (b : ℕ) (hb : 2 ≤ b) (n : ℕ) :
    valOfDigitsMSB b (toDigitsLE b n).reverse = n := by
  rw [valOfDigitsMSB_eq, List.reverse_reverse, ofDigitsLE_toDigitsLE b hb]

/-! ## Lemmas: digit characters -/

theorem hexCharValD_digitChar : ∀ d < 16, hexCharValD (digitChar d) = d := by decide

theorem baseCharOk_digitChar : ∀ b ≤ 16, ∀ d < b, baseCharOk b (digitChar d) = true := by
  decide

theorem hexCharVal?_some_ranges (c : Char) (d : ℕ) (h : hexCharVal? c = some d) :
    d < 16 ∧ ((48 ≤ c.toNat ∧ c.toNat ≤ 57) ∨ (97 ≤ c.toNat ∧ c.toNat ≤ 102) ∨
      (65 ≤ c.toNat ∧ c.toNat ≤ 70)) := by
  unfold hexCharVal? at h
  split_ifs at h with h1 h2 h3 <;> simp only [Option.some.injEq] at h <;> omega

theorem baseCharOk_elim (b : ℕ) (c : Char) (h : baseCharOk b c = true) :
    ∃ d, hexCharVal? c = some d ∧ d < b := by
  unfold baseCharOk at h
  rcases hv : hexCharVal? c with _ | d
  · rw [hv] at h; exact absurd h (by simp)
  · rw [hv] at h
    simp only [decide_eq_true_eq] at h
    exact ⟨d, rfl, h⟩

theorem baseCharOk_of_hexCharVal (b : ℕ) (c : Char) (d : ℕ)
    (hv : hexCharVal? c = some d) (hd : d < b) : baseCharOk b c = true := by
  unfold baseCharOk
  rw [hv]
  simpa using hd

theorem isHexChar_baseCharOk16 (c : Char) (h : isHexChar c = true) :
    baseCharOk 16 c = true := by
  unfold isHexChar at h
  rcases hv : hexCharVal? c with _ | d
  · rw [hv] at h; simp at h
  · exact baseCharOk_of_hexCharVal 16 c d hv (hexCharVal?_some_ranges c d hv).1

theorem jsWhite_eq_false_of_hexRange (c : Char)
    (h : (48 ≤ c.toNat ∧ c.toNat ≤ 57) ∨ (97 ≤ c.toNat ∧ c.toNat ≤ 102) ∨
      (65 ≤ c.toNat ∧ c.toNat ≤ 70)) : jsWhite c = false := by
  unfold jsWhite
  exact decide_eq_false (by omega)

theorem jsWhite_eq_false_of_baseCharOk (b : ℕ) (c : Char) (h : baseCharOk b c = true) :
    jsWhite c = false := by
  obtain ⟨d, hv, _⟩ := baseCharOk_elim b c h
  exact jsWhite_eq_false_of_hexRange c (hexCharVal?_some_ranges c d hv).2

theorem jsWhite_eq_false_of_isHexChar (c : Char) (h : isHexChar c = true) :
    jsWhite c = false :=
  jsWhite_eq_false_of_baseCharOk 16 c (isHexChar_baseCharOk16 c h)

/-! ## Lemmas: rendering and parsing round trips -/

theorem digitsVal_map_digitChar (b : ℕ) (hb16 : b ≤ 16) (ds : List ℕ)
    (hds : ∀ d ∈ ds, d < b) : digitsVal b (ds.map digitChar) = valOfDigitsMSB b ds := by
  unfold digitsVal
  rw [List.map_map]
  congr 1
  have : ∀ d ∈ ds, (hexCharValD ∘ digitChar) d = id d := by
    intro d hd
    exact hexCharValD_digitChar d (lt_of_lt_of_le (hds d hd) hb16)
  rw [List.map_congr_left this, List.map_id]

theorem renderNat_all_ok (b : ℕ) (hb : 2 ≤ b) (hb16 : b ≤ 16) (n : ℕ) :
    (renderNat b n).all (baseCharOk b) = true := by
  unfold renderNat
  split_ifs with h0
  · simp only [List.all_cons, List.all_nil, Bool.and_true]
    exact baseCharOk_digitChar b hb16 0 (by omega)
  · rw [List.all_eq_true]
    intro c hc
    rw [List.mem_map] at hc
    obtain ⟨d, hd, rfl⟩ := hc
    rw [List.mem_reverse] at hd
    exact baseCharOk_digitChar b hb16 d (toDigitsLE_lt b (by omega) n d hd)

theorem renderNat_ne_nil (b n : ℕ) : renderNat b n ≠ [] := by
  unfold renderNat
  split_ifs with h0
  · simp
  · simp only [ne_eq, List.map_eq_nil_iff, List.reverse_eq_nil_iff]
    exact toDigitsLE_ne_nil b n h0

theorem digitsVal_renderNat (b : ℕ) (hb : 2 ≤ b) (hb16 : b ≤ 16) (n : ℕ) :
    digitsVal b (renderNat b n) = n := by
  unfold renderNat
  split_ifs with h0
  · subst h0
    simp [digitsVal, valOfDigitsMSB, hexCharValD, hexCharVal?]
  · have hds : ∀ d ∈ (toDigitsLE b n).reverse, d < b := by
      intro d hd
      rw [List.mem_reverse] at hd
      exact toDigitsLE_lt b (by omega) n d hd
    rw [digitsVal_map_digitChar b hb16 _ hds, valOfDigitsMSB_toDigits b hb]

theorem not_isEmpty_of_ne_nil {α : Type} (l : List α) (h : l ≠ []) :
    (!l.isEmpty) = true := by
  cases l with
  | nil => exact absurd rfl h
  | cons a tl => rfl

theorem parseDigits_renderNat (b : ℕ) (hb : 2 ≤ b) (hb16 : b ≤ 16) (n : ℕ) :
    parseDigits b (renderNat b n) = some n := by
  have hcond : (!(renderNat b n).isEmpty && (renderNat b n).all (baseCharOk b)) = true := by
    rw [Bool.and_eq_true]
    exact ⟨not_isEmpty_of_ne_nil _ (renderNat_ne_nil b n), renderNat_all_ok b hb hb16 n⟩
  unfold parseDigits
  rw [if_pos hcond, digitsVal_renderNat b hb hb16]

/-! ## Lemmas: JavaScript trimming and BigInt parsing -/

theorem dropWhile_eq_self_of_all {α : Type} (p : α → Bool) (l : List α)
    (h : ∀ c ∈ l, p c = false) : l.dropWhile p = l := by
  cases l with
  | nil => rfl
  | cons a tl => simp [List.dropWhile_cons, h a (List.mem_cons_self a tl)]

theorem jsTrim_eq_self (l : List Char) (h : ∀ c ∈ l, jsWhite c = false) :
    jsTrim l = l := by
  unfold jsTrim
  rw [dropWhile_eq_self_of_all jsWhite l h,
    dropWhile_eq_self_of_all jsWhite l.reverse (by
      intro c hc
      exact h c (List.mem_reverse.mp hc)),
    List.reverse_reverse]

theorem mem_dropWhile_of_mem {α : Type} (p : α → Bool) (l : List α) (c : α)
    (hc : c ∈ l) (hp : p c = false) : c ∈ l.dropWhile p := by
  induction l with
  | nil => simp at hc
  | cons a tl ih =>
    rw [List.dropWhile_cons]
    split_ifs with ha
    · rcases List.mem_cons.mp hc with rfl | h
      · rw [ha] at hp; simp at hp
      · exact ih h
    · exact hc

theorem mem_jsTrim_of_mem (l : List Char) (c : Char) (hc : c ∈ l)
    (hw : jsWhite c = false) : c ∈ jsTrim l := by
  unfold jsTrim
  rw [List.mem_reverse]
  refine mem_dropWhile_of_mem jsWhite _ c ?_ hw
  rw [List.mem_reverse]
  exact mem_dropWhile_of_mem jsWhite l c hc hw

theorem parseDigits_none_of_dot (b : ℕ) (l : List Char) (h : '.' ∈ l) :
    parseDigits b l = none := by
  unfold parseDigits
  rw [if_neg]
  intro hcond
  rw [Bool.and_eq_true, List.all_eq_true] at hcond
  have := hcond.2 '.' h
  unfold baseCharOk at this
  rw [show hexCharVal? '.' = none from by decide] at this
  simp at this

theorem jsHex_parse (l : List Char) (hne : l ≠ []) (hhex : l.all isHexChar = true) :
    jsStringToBigIntL ('0' :: 'x' :: l) = some ((digitsVal 16 l : ℕ) : ℤ) := by
  unfold jsStringToBigIntL
  rw [List.all_eq_true] at hhex
  rw [jsTrim_eq_self _ (by
    intro c hc
    rcases List.mem_cons.mp hc with rfl | hc2
    · decide
    rcases List.mem_cons.mp hc2 with rfl | hc3
    · decide
    · exact jsWhite_eq_false_of_isHexChar c (hhex c hc3))]
  have hcond : (!l.isEmpty && l.all (baseCharOk 16)) = true := by
    rw [Bool.and_eq_true]
    refine ⟨not_isEmpty_of_ne_nil _ hne, ?_⟩
    rw [List.all_eq_true]
    intro c hc
    exact isHexChar_baseCharOk16 c (hhex c hc)
  simp only [jsParseTrimmed, jsParseTail]
  norm_num
  unfold parseDigits
  rw [if_pos hcond]
  rfl

theorem intDecStr_ofNat (n : ℕ) : intDecStr ((n : ℕ) : ℤ) = natDecStr n := by
  unfold intDecStr
  rw [if_neg (by exact_mod_cast not_lt.mpr (Int.natCast_nonneg n))]
  rw [Int.toNat_natCast]

theorem string_mk_cons_ne_empty (c : Char) (l : List Char) : String.mk (c :: l) ≠ "" := by
  intro h
  exact absurd (congrArg String.data h) (by simp)

theorem hexChar_ne_x (c : Char) (h : isHexChar c = true) : c ≠ 'x' := by
  intro hc
  subst hc
  exact absurd h (by decide)

theorem dropHex0x_of_all_hex (l : List Char) (h : l.all isHexChar = true) :
    dropHex0x l = l := by
  rw [List.all_eq_true] at h
  cases l with
  | nil => rfl
  | cons c1 tl =>
    cases tl with
    | nil => rfl
    | cons c2 rest =>
      simp only [dropHex0x]
      rw [if_neg]
      rintro ⟨rfl, rfl⟩
      exact absurd (h 'x' (by simp)) (by decide)

/-! ## C10: `hexToDecimal` is total, with the three documented behaviors -/

/-- C10: `hexToDecimal` never throws: it returns `"0"` for `""` and for
`"0x"`; for any input that parses as hexadecimal — a non-empty string of
hex digits (upper- or lower-case), with or without a `0x` prefix — it
returns the decimal representation of the value; and whenever the
underlying `BigInt` conversion fails it returns the original input string
unchanged. -/
theorem c10_hexToDecimal_total :
    hexToDecimal "" = "0" ∧
    hexToDecimal "0x" = "0" ∧
    (∀ l : List Char, l ≠ [] → l.all isHexChar = true →
      hexToDecimal (String.mk l) = natDecStr (digitsVal 16 l) ∧
      hexToDecimal (String.mk ('0' :: 'x' :: l)) = natDecStr (digitsVal 16 l)) ∧
    (∀ s : String, s ≠ "" → s ≠ "0x" →
      jsStringToBigIntL ('0' :: 'x' :: dropHex0x s.toList) = none →
      hexToDecimal s = s) := by
  refine ⟨rfl, rfl, ?_, ?_⟩
  · intro l hne hhex
    constructor
    · have hs1 : String.mk l ≠ "" := by
        cases l with
        | nil => exact absurd rfl hne
        | cons c tl => exact string_mk_cons_ne_empty c tl
      have hs2 : String.mk l ≠ "0x" := by
        intro h
        have : l = ['0', 'x'] := congrArg String.data h
        subst this
        rw [List.all_eq_true] at hhex
        exact absurd (hhex 'x' (by simp)) (by decide)
      unfold hexToDecimal
      rw [if_neg (by tauto)]
      have htl : (String.mk l).toList = l := rfl
      rw [htl, dropHex0x_of_all_hex l hhex, jsHex_parse l hne hhex]
      exact intDecStr_ofNat _
    · have hs2 : String.mk ('0' :: 'x' :: l) ≠ "0x" := by
        intro h
        have : ('0' :: 'x' :: l : List Char) = ['0', 'x'] := congrArg String.data h
        simp at this
        exact hne this
      unfold hexToDecimal
      rw [if_neg (by
        push_neg
        exact ⟨string_mk_cons_ne_empty _ _, hs2⟩)]
      have htl : (String.mk ('0' :: 'x' :: l)).toList = '0' :: 'x' :: l := rfl
      rw [htl]
      have hdrop : dropHex0x ('0' :: 'x' :: l) = l := by
        simp [dropHex0x]
      rw [hdrop, jsHex_parse l hne hhex]
      exact intDecStr_ofNat _
  · intro s hs1 hs2 hfail
    unfold hexToDecimal
    rw [if_neg (by tauto), hfail]

/-- Witness for C10 at concrete inputs. -/
theorem c10_hexToDecimal_total_witness :
    hexToDecimal "1a" = "26" ∧ hexToDecimal "0x1A" = "26" ∧ hexToDecimal "zz" = "zz" := by
  refine ⟨?_, ?_, ?_⟩
  · exact (c10_hexToDecimal_total.2.2.1 ['1', 'a'] (by decide) (by decide)).1
  · exact (c10_hexToDecimal_total.2.2.1 ['1', 'A'] (by decide) (by decide)).2
  · exact c10_hexToDecimal_total.2.2.2 "zz" (by decide) (by decide) (by decide)

/-! ## C6: base conversion round trips -/

theorem baseCharOk16_isHexChar (c : Char) (h : baseCharOk 16 c = true) :
    isHexChar c = true := by
  obtain ⟨d, hv, _⟩ := baseCharOk_elim 16 c h
  unfold isHexChar
  rw [hv]
  rfl

theorem isBinChar_digitChar : ∀ d < 2, isBinChar (digitChar d) = true := by decide

theorem renderNat2_all_bin (n : ℕ) : (renderNat 2 n).all isBinChar = true := by
  unfold renderNat
  split_ifs with h0
  · decide
  · rw [List.all_eq_true]
    intro c hc
    rw [List.mem_map] at hc
    obtain ⟨d, hd, rfl⟩ := hc
    rw [List.mem_reverse] at hd
    exact isBinChar_digitChar d (toDigitsLE_lt 2 (by omega) n d hd)

theorem renderNat16_all_hex (n : ℕ) : (renderNat 16 n).all isHexChar = true := by
  have := renderNat_all_ok 16 (by omega) (by omega) n
  rw [List.all_eq_true] at this ⊢
  intro c hc
  exact baseCharOk16_isHexChar c (this c hc)

theorem guard_eq {γ : Type} (c1 c2 : Bool) (res : γ) :
    (if c1 then (none : Option γ) else if c2 then some res else none)
      = (if !c1 && c2 then some res else none) := by
  cases c1 <;> cases c2 <;> simp

theorem map_guard {γ δ : Type} (c : Bool) (a : γ) (f : γ → δ) :
    Option.map f (if c then some a else none) = if c then some (f a) else none := by
  cases c <;> simp

theorem handleHexChange_eq (v : String) :
    handleHexChange v
      = (parseBase .hex v).map (fun n => (renderBase .dec n, renderBase .bin n)) := by
  simp only [handleHexChange, parseBase]
  rw [guard_eq, map_guard]
  rfl

theorem handleDecimalChange_eq (v : String) :
    handleDecimalChange v
      = (parseBase .dec v).map (fun n => (renderBase .hex n, renderBase .bin n)) := by
  simp only [handleDecimalChange, parseBase]
  rw [guard_eq, map_guard]
  rfl

theorem handleBinaryChange_eq (v : String) :
    handleBinaryChange v
      = (parseBase .bin v).map (fun n => (renderBase .hex n, renderBase .dec n)) := by
  simp only [handleBinaryChange, parseBase]
  rw [guard_eq, map_guard]
  rfl

theorem toList_mk (l : List Char) : (String.mk l).toList = l := rfl

theorem parseBase_renderBase (b : NumBase) (n : ℕ) :
    parseBase b (renderBase b n) = some n := by
  cases b with
  | hex =>
    simp only [renderBase, parseBase, toList_mk]
    have hdrop : dropHex0x ('0' :: 'x' :: renderNat 16 n) = renderNat 16 n := by
      simp [dropHex0x]
    rw [hdrop]
    rw [if_pos (by
      rw [Bool.and_eq_true]
      exact ⟨not_isEmpty_of_ne_nil _ (renderNat_ne_nil 16 n), renderNat16_all_hex n⟩)]
    rw [digitsVal_renderNat 16 (by omega) (by omega)]
  | dec =>
    simp only [renderBase, natDecStr, parseBase, toList_mk]
    rw [if_pos (by
      rw [Bool.and_eq_true]
      refine ⟨not_isEmpty_of_ne_nil _ (renderNat_ne_nil 10 n), ?_⟩
      show (renderNat 10 n).all (baseCharOk 10) = true
      exact renderNat_all_ok 10 (by omega) (by omega) n)]
    rw [digitsVal_renderNat 10 (by omega) (by omega)]
  | bin =>
    simp only [renderBase, parseBase, toList_mk]
    rw [if_pos (by
      rw [Bool.and_eq_true]
      exact ⟨not_isEmpty_of_ne_nil _ (renderNat_ne_nil 2 n), renderNat2_all_bin n⟩)]
    rw [digitsVal_renderNat 2 (by omega) (by omega)]

theorem convertBase_of_parse (v : String) (b1 b2 : NumBase) (n : ℕ)
    (h : parseBase b1 v = some n) :
    convertBase v b1 b2 = some (if b1 = b2 then v else renderBase b2 n) := by
  cases b1 with
  | hex =>
    simp only [convertBase]
    rw [handleHexChange_eq, h]
    cases b2 <;> simp
  | dec =>
    simp only [convertBase]
    rw [handleDecimalChange_eq, h]
    cases b2 <;> simp
  | bin =>
    simp only [convertBase]
    rw [handleBinaryChange_eq, h]
    cases b2 <;> simp

/-- C6 (amended): for every literal `v` valid in base `b1`, converting to a
different base `b2` yields the canonical rendering of the value in `b2`
(`0x`-prefixed lower-case hex, or a digit string without leading zeros),
and converting that back yields the canonical rendering in `b1` — i.e. the
round trip normalizes `v` by stripping leading zeros and, for hex,
lower-casing the digits and producing (not stripping) the `0x` prefix;
converting a valid literal to its own base echoes it unchanged. -/
theorem c6_convertBase_roundtrip (b1 b2 : NumBase) (v : String) (n : ℕ)
    (h : parseBase b1 v = some n) :
    (b1 = b2 → convertBase v b1 b2 = some v) ∧
    (b1 ≠ b2 → convertBase v b1 b2 = some (renderBase b2 n) ∧
      convertBase (renderBase b2 n) b2 b1 = some (renderBase b1 n)) ∧
    normalizeBase b1 v = some (renderBase b1 n) := by
  refine ⟨?_, ?_, ?_⟩
  · intro heq
    rw [convertBase_of_parse v b1 b2 n h, if_pos heq]
  · intro hne
    refine ⟨?_, ?_⟩
    · rw [convertBase_of_parse v b1 b2 n h, if_neg hne]
    · rw [convertBase_of_parse _ b2 b1 n (parseBase_renderBase b2 n),
        if_neg (fun hc => hne hc.symm)]
  · unfold normalizeBase
    rw [h]
    rfl

/-- C6 counterexample: the claim's round trip equation with a normalize
that strips the `0x` prefix fails at `v = "0xff"`, `b1 = hex`, `b2 =
decimal` — the code's round trip yields `"0xff"` (prefix re-added), not
`"ff"`. -/
theorem c6_counterexample :
    (convertBase "0xff" NumBase.hex NumBase.dec).bind
        (fun w => convertBase w NumBase.dec NumBase.hex) = some "0xff" ∧
    specNormalize "0xff" = "ff" ∧ ("0xff" : String) ≠ "ff" := by decide

/-- Witness for C6 at concrete inputs. -/
theorem c6_convertBase_roundtrip_witness :
    parseBase NumBase.dec "007" = some 7 ∧
    (convertBase "007" NumBase.dec NumBase.bin = some "111" ∧
      convertBase "111" NumBase.bin NumBase.dec = some "7") ∧
    normalizeBase NumBase.dec "007" = some "7" := by
  have h := c6_convertBase_roundtrip NumBase.dec NumBase.bin "007" 7 (by decide)
  exact ⟨by decide, h.2.1 (by decide), h.2.2⟩

/-! ## C5: unit conversion round trips -/

theorem takeWhile_eq_self_of_all {α : Type} (p : α → Bool) (l : List α)
    (h : ∀ c ∈ l, p c = true) : l.takeWhile p = l := by
  induction l with
  | nil => rfl
  | cons a tl ih =>
    rw [List.takeWhile_cons, if_pos (h a (List.mem_cons_self a tl))]
    rw [ih (fun c hc => h c (List.mem_cons_of_mem a hc))]

theorem dropWhile_eq_nil_of_all {α : Type} (p : α → Bool) (l : List α)
    (h : ∀ c ∈ l, p c = true) : l.dropWhile p = [] := by
  induction l with
  | nil => rfl
  | cons a tl ih =>
    rw [List.dropWhile_cons, if_pos (h a (List.mem_cons_self a tl))]
    exact ih (fun c hc => h c (List.mem_cons_of_mem a hc))

theorem takeWhile_append_stop {α : Type} (p : α → Bool) (l1 l2 : List α) (x : α)
    (h1 : ∀ c ∈ l1, p c = true) (hx : p x = false) :
    (l1 ++ x :: l2).takeWhile p = l1 ∧ (l1 ++ x :: l2).dropWhile p = x :: l2 := by
  induction l1 with
  | nil => simp [List.takeWhile_cons, List.dropWhile_cons, hx]
  | cons a tl ih =>
    have ha := h1 a (List.mem_cons_self a tl)
    have ih2 := ih (fun c hc => h1 c (List.mem_cons_of_mem a hc))
    simp only [List.cons_append, List.takeWhile_cons, List.dropWhile_cons, ha,
      if_pos, ih2.1, ih2.2]
    simp

theorem baseCharOk_ne_dot (b : ℕ) (c : Char) (h : baseCharOk b c = true) :
    (c != '.') = true := by
  obtain ⟨d, hv, _⟩ := baseCharOk_elim b c h
  rcases eq_or_ne c '.' with rfl | hne
  · rw [show hexCharVal? '.' = none from by decide] at hv
    exact absurd hv (by simp)
  · simpa using hne

theorem isDecChar_digitChar : ∀ d < 10, isDecChar (digitChar d) = true := by decide

theorem renderNat10_ne_dot (n : ℕ) :
    ∀ c ∈ renderNat 10 n, (c != '.') = true := by
  intro c hc
  have hall := renderNat_all_ok 10 (by omega) (by omega) n
  rw [List.all_eq_true] at hall
  exact baseCharOk_ne_dot 10 c (hall c hc)

theorem renderNat10_all_dec (n : ℕ) : (renderNat 10 n).all isDecChar = true :=
  renderNat_all_ok 10 (by omega) (by omega) n

theorem digitsVal_nil (b : ℕ) : digitsVal b [] = 0 := rfl

/-- Every fact about the fractional rendering needed for the parse/format
round trip: all digits, bounded length, non-empty, and exact value. -/
theorem fracRender_spec (d r : ℕ) (hr : 0 < r) (hlt : r < 10 ^ d) :
    (fracRender d r).all isDecChar = true ∧
    (fracRender d r).length ≤ d ∧
    (fracRender d r) ≠ [] ∧
    digitsVal 10 (fracRender d r) * 10 ^ (d - (fracRender d r).length) = r := by
  have hds_val : ofDigitsLE 10 (toDigitsLE 10 r) = r := ofDigitsLE_toDigitsLE 10 (by omega) r
  have hds_len : (toDigitsLE 10 r).length ≤ d := toDigitsLE_length 10 (by omega) r d hlt
  have hds_lt : ∀ x ∈ toDigitsLE 10 r, x < 10 := fun x hx => toDigitsLE_lt 10 (by omega) r x hx
  set ds := toDigitsLE 10 r with hds
  set trimmed := ds.dropWhile (fun x => x == 0) with htr
  have hdecomp : ds = List.replicate (ds.takeWhile (fun x => x == 0)).length 0 ++ trimmed := by
    conv_lhs => rw [← List.takeWhile_append_dropWhile (fun x => x == 0) ds]
    congr 1
    refine List.eq_replicate_of_mem ?_
    intro x hx
    have := List.mem_takeWhile_imp hx
    simpa using this
  set k := (ds.takeWhile (fun x => x == 0)).length with hk
  have hlen_ds : ds.length = k + trimmed.length := by
    conv_lhs => rw [hdecomp]
    simp
  have htrim_val : 10 ^ k * ofDigitsLE 10 trimmed = r := by
    conv_rhs => rw [← hds_val, hdecomp]
    rw [ofDigitsLE_append, ofDigitsLE_replicate_zero]
    simp
  have htrim_ne : trimmed ≠ [] := by
    intro hnil
    rw [hnil] at htrim_val
    simp [ofDigitsLE] at htrim_val
    omega
  have htrim_lt : ∀ x ∈ trimmed, x < 10 := by
    intro x hx
    refine hds_lt x ?_
    rw [hdecomp]
    exact List.mem_append_right _ hx
  have hmap : fracRender d r
      = (List.replicate (d - ds.length) 0 ++ trimmed.reverse).map digitChar := rfl
  have hlistlt : ∀ x ∈ List.replicate (d - ds.length) 0 ++ trimmed.reverse, x < 10 := by
    intro x hx
    rcases List.mem_append.mp hx with hx | hx
    · rw [List.eq_of_mem_replicate hx]; omega
    · exact htrim_lt x (List.mem_reverse.mp hx)
  have hflen : (fracRender d r).length = (d - ds.length) + trimmed.length := by
    rw [hmap]
    simp
  refine ⟨?_, ?_, ?_, ?_⟩
  · rw [hmap, List.all_eq_true]
    intro c hc
    rw [List.mem_map] at hc
    obtain ⟨x, hx, rfl⟩ := hc
    exact isDecChar_digitChar x (hlistlt x hx)
  · rw [hflen]; omega
  · intro hnil
    have hlen0 := congrArg List.length hnil
    rw [hflen] at hlen0
    simp only [List.length_nil] at hlen0
    exact htrim_ne (List.eq_nil_of_length_eq_zero (by omega))
  · have hval : digitsVal 10 (fracRender d r) = ofDigitsLE 10 trimmed := by
      rw [hmap, digitsVal_map_digitChar 10 (by omega) _ hlistlt, valOfDigitsMSB_eq,
        List.reverse_append, List.reverse_reverse, List.reverse_replicate,
        ofDigitsLE_append, ofDigitsLE_replicate_zero]
      ring
    rw [hval, hflen]
    have hexp : d - ((d - ds.length) + trimmed.length) = k := by omega
    rw [hexp]
    rw [mul_comm]
    exact htrim_val

/-- Parsing its own rendering recovers the exact wei value. -/
theorem parseUnitL_formatUnitL (d n : ℕ) :
    parseUnitL d (formatUnitL d n) = some n := by
  have hqr : 10 ^ d * (n / 10 ^ d) + n % 10 ^ d = n := Nat.div_add_mod n (10 ^ d)
  have hrlt : n % 10 ^ d < 10 ^ d := Nat.mod_lt _ (Nat.pos_pow_of_pos d (by omega))
  by_cases hr : n % 10 ^ d = 0
  · unfold formatUnitL
    rw [if_pos hr]
    unfold parseUnitL
    rw [takeWhile_eq_self_of_all _ _ (renderNat10_ne_dot _),
      dropWhile_eq_nil_of_all _ _ (renderNat10_ne_dot _)]
    simp only [List.drop_nil]
    rw [if_pos (by
      rw [renderNat10_all_dec]
      simp [not_isEmpty_of_ne_nil _ (renderNat_ne_nil 10 (n / 10 ^ d))])]
    rw [digitsVal_renderNat 10 (by omega) (by omega), digitsVal_nil]
    have h2 : n / 10 ^ d * 10 ^ d = 10 ^ d * (n / 10 ^ d) := Nat.mul_comm _ _
    congr 1
    simp only [Nat.zero_mul, Nat.add_zero]
    omega
  · obtain ⟨hall, hlen, hne, hval⟩ :=
      fracRender_spec d (n % 10 ^ d) (Nat.pos_of_ne_zero hr) hrlt
    unfold formatUnitL
    rw [if_neg hr]
    unfold parseUnitL
    obtain ⟨htake, hdrop⟩ := takeWhile_append_stop (fun c => c != '.')
      (renderNat 10 (n / 10 ^ d)) (fracRender d (n % 10 ^ d)) '.'
      (renderNat10_ne_dot _) (by decide)
    rw [htake, hdrop]
    simp only [List.drop_succ_cons, List.drop_zero]
    rw [if_pos (by
      rw [renderNat10_all_dec, hall]
      simp only [Bool.true_and]
      rw [Bool.and_eq_true]
      refine ⟨?_, by simpa using hlen⟩
      simp [not_isEmpty_of_ne_nil _ (renderNat_ne_nil 10 (n / 10 ^ d))])]
    rw [digitsVal_renderNat 10 (by omega) (by omega), hval]
    have h2 : n / 10 ^ d * 10 ^ d = 10 ^ d * (n / 10 ^ d) := Nat.mul_comm _ _
    congr 1
    omega

/-- Parsing the canonical rendering in any unit recovers the value. -/
theorem parseUnit_formatUnit (u : EthUnit) (n : ℕ) :
    parseUnit u (formatUnit u n) = some n := by
  cases u with
  | wei =>
    have h0 : formatUnitL (unitDecimals .wei) n = renderNat 10 n := by
      unfold formatUnitL unitDecimals
      rw [if_pos (by simp [Nat.mod_one])]
      rw [Nat.pow_zero, Nat.div_one]
    simp only [parseUnit, formatUnit, h0, toList_mk]
    rw [if_pos (by
      rw [renderNat10_all_dec]
      simp [not_isEmpty_of_ne_nil _ (renderNat_ne_nil 10 n)])]
    rw [digitsVal_renderNat 10 (by omega) (by omega)]
  | gwei =>
    simp only [parseUnit, formatUnit, unitDecimals, toList_mk]
    exact parseUnitL_formatUnitL 9 n
  | ether =>
    simp only [parseUnit, formatUnit, unitDecimals, toList_mk]
    exact parseUnitL_formatUnitL 18 n

/-- C5 (amended): for all units `u1, u2` and every literal `v` accepted by
`u1`, the conversion is exact — converting `v` to `u2` yields the canonical
fixed-point rendering of `v`'s wei value in `u2`, and converting that back
yields the canonical rendering of the same value in `u1`; the round trip
therefore returns `v` itself exactly when `v` is already canonical (no
redundant leading zeros, no trailing fractional zeros, no bare decimal
point), and in general returns the normalized form of `v` with the numeric
value preserved exactly (fixed-point, no float rounding). -/
theorem c5_convertValueUnits_roundtrip (u1 u2 : EthUnit) (v : String) (n : ℕ)
    (h : parseUnit u1 v = some n) :
    convertValueUnits v u1 u2 = some (formatUnit u2 n) ∧
    convertValueUnits (formatUnit u2 n) u2 u1 = some (formatUnit u1 n) := by
  constructor
  · unfold convertValueUnits
    rw [h]
    rfl
  · unfold convertValueUnits
    rw [parseUnit_formatUnit u2 n]
    rfl

/-- C5 counterexample: the claim's round trip `== v` fails at `v = "00"`,
`u1 = wei`, `u2 = gwei` — the literal `"00"` is accepted by wei (digits
only) but the round trip returns `"0"`, not `"00"`. -/
theorem c5_counterexample :
    (convertValueUnits "00" EthUnit.wei EthUnit.gwei).bind
      (fun w => convertValueUnits w EthUnit.gwei EthUnit.wei) = some "0" ∧
    ("0" : String) ≠ "00" := by decide

/-- Witness for C5 at a concrete input: one wei renders as the exact
fixed-point gwei literal `0.000000001` and converts back to `"1"`. -/
theorem c5_convertValueUnits_roundtrip_witness :
    parseUnit EthUnit.wei "1" = some 1 ∧
    formatUnit EthUnit.gwei 1 = "0.000000001" ∧
    (convertValueUnits "1" EthUnit.wei EthUnit.gwei = some (formatUnit EthUnit.gwei 1) ∧
     convertValueUnits (formatUnit EthUnit.gwei 1) EthUnit.gwei EthUnit.wei
       = some (formatUnit EthUnit.wei 1)) :=
  ⟨by decide, by decide,
    c5_convertValueUnits_roundtrip EthUnit.wei EthUnit.gwei "1" 1 (by decide)⟩

/-! ## C7: the accepted alphabets of the unit converter -/

theorem isDecChar_toNat (c : Char) (h : isDecChar c = true) :
    48 ≤ c.toNat ∧ c.toNat ≤ 57 := by
  obtain ⟨d, hv, hd10⟩ := baseCharOk_elim 10 c h
  unfold hexCharVal? at hv
  split_ifs at hv with h1 h2 h3 <;> simp only [Option.some.injEq] at hv <;> omega

theorem isDecChar_ne_char (c x : Char) (h : isDecChar c = true)
    (hx : x.toNat < 48 ∨ 57 < x.toNat) : c ≠ x := by
  intro heq
  have h2 := isDecChar_toNat c h
  rw [heq] at h2
  omega

theorem parseDigits_of_all (b : ℕ) (l : List Char) (hne : l ≠ [])
    (hall : l.all (baseCharOk b) = true) : parseDigits b l = some (digitsVal b l) := by
  unfold parseDigits
  rw [if_pos]
  rw [Bool.and_eq_true]
  exact ⟨not_isEmpty_of_ne_nil _ hne, hall⟩

theorem all_isDecChar_baseCharOk (l : List Char) (h : l.all isDecChar = true) :
    l.all (baseCharOk 10) = true := h

theorem jsDec_parse (l : List Char) (hne : l ≠ []) (hdig : l.all isDecChar = true) :
    jsParseTrimmed l = some ((digitsVal 10 l : ℕ) : ℤ) := by
  have hall := all_isDecChar_baseCharOk l hdig
  rw [List.all_eq_true] at hdig
  cases l with
  | nil => exact absurd rfl hne
  | cons c rest =>
    have hc := isDecChar_toNat c (hdig c (List.mem_cons_self c rest))
    simp only [jsParseTrimmed]
    rw [if_neg (by
      intro heq
      have := congrArg Char.toNat heq
      rw [show Char.toNat '+' = 43 from rfl] at this
      omega)]
    rw [if_neg (by
      intro heq
      have := congrArg Char.toNat heq
      rw [show Char.toNat '-' = 45 from rfl] at this
      omega)]
    by_cases hc0 : c = '0'
    · rw [if_pos hc0]
      subst hc0
      cases rest with
      | nil => decide
      | cons c2 rest2 =>
        have hc2 := isDecChar_toNat c2 (hdig c2 (by simp))
        simp only [jsParseTail]
        rw [if_neg (by
          rintro (heq | heq) <;> rw [heq] at hc2 <;>
            simp only [Char.reduceToNat] at hc2 <;> omega)]
        rw [if_neg (by
          rintro (heq | heq) <;> rw [heq] at hc2 <;>
            simp only [Char.reduceToNat] at hc2 <;> omega)]
        rw [if_neg (by
          rintro (heq | heq) <;> rw [heq] at hc2 <;>
            simp only [Char.reduceToNat] at hc2 <;> omega)]
        rw [parseDigits_of_all 10 _ (by simp) hall]
        rfl
    · rw [if_neg hc0, parseDigits_of_all 10 _ (by simp) hall]
      rfl

theorem parseDigits_none_of_mem_dot (b : ℕ) (l : List Char) (h : '.' ∈ l) :
    (parseDigits b l).map (fun n => (n : ℤ)) = none := by
  rw [parseDigits_none_of_dot b l h]
  rfl

theorem jsParseTail_none_of_dot (rest : List Char) (h : '.' ∈ rest) :
    jsParseTail rest = none := by
  cases rest with
  | nil => simp at h
  | cons c2 rest2 =>
    simp only [jsParseTail]
    split_ifs with h1 h2 h3
    · refine parseDigits_none_of_mem_dot 16 rest2 ?_
      rcases List.mem_cons.mp h with heq | hm
      · rcases h1 with rfl | rfl <;> exact absurd heq (by decide)
      · exact hm
    · refine parseDigits_none_of_mem_dot 8 rest2 ?_
      rcases List.mem_cons.mp h with heq | hm
      · rcases h2 with rfl | rfl <;> exact absurd heq (by decide)
      · exact hm
    · refine parseDigits_none_of_mem_dot 2 rest2 ?_
      rcases List.mem_cons.mp h with heq | hm
      · rcases h3 with rfl | rfl <;> exact absurd heq (by decide)
      · exact hm
    · exact parseDigits_none_of_mem_dot 10 _ (List.mem_cons_of_mem '0' h)

theorem jsParseTrimmed_none_of_dot (t : List Char) (h : '.' ∈ t) :
    jsParseTrimmed t = none := by
  cases t with
  | nil => simp at h
  | cons c rest =>
    simp only [jsParseTrimmed]
    split_ifs with h1 h2 h3
    · refine parseDigits_none_of_mem_dot 10 rest ?_
      rcases List.mem_cons.mp h with heq | hm
      · subst h1; exact absurd heq (by decide)
      · exact hm
    · rw [parseDigits_none_of_dot 10 rest (by
        rcases List.mem_cons.mp h with heq | hm
        · subst h2; exact absurd heq (by decide)
        · exact hm)]
      rfl
    · refine jsParseTail_none_of_dot rest ?_
      rcases List.mem_cons.mp h with heq | hm
      · subst h3; exact absurd heq (by decide)
      · exact hm
    · exact parseDigits_none_of_mem_dot 10 _ h

theorem jsWhite_dot : jsWhite '.' = false := by decide

theorem dropWhile_head_false {α : Type} (p : α → Bool) (l : List α) (c : α)
    (tl : List α) (h : l.dropWhile p = c :: tl) : p c = false := by
  induction l with
  | nil => simp at h
  | cons a l2 ih =>
    rw [List.dropWhile_cons] at h
    split_ifs at h with ha
    · exact ih h
    · injection h with h1 h2
      subst h1
      simpa using ha

theorem isDecChar_dot : isDecChar '.' = false := by decide

/-- Any literal a gwei/ether parse accepts draws only on digits and at most
one decimal point. -/
theorem parseUnitL_alphabet (d : ℕ) (l : List Char) (n : ℕ)
    (h : parseUnitL d l = some n) :
    l.all (fun c => isDecChar c || c == '.') = true ∧ l.count '.' ≤ 1 := by
  unfold parseUnitL at h
  by_cases hcond : (l.takeWhile (fun c => c != '.')).all isDecChar &&
      ((l.dropWhile (fun c => c != '.')).drop 1).all isDecChar &&
      (!(l.takeWhile (fun c => c != '.')).isEmpty ||
        !((l.dropWhile (fun c => c != '.')).drop 1).isEmpty) &&
      decide (((l.dropWhile (fun c => c != '.')).drop 1).length ≤ d)
  case neg => rw [if_neg hcond] at h; exact absurd h (by simp)
  rw [if_pos hcond] at h
  simp only [Bool.and_eq_true] at hcond
  obtain ⟨⟨⟨hip, hfp⟩, -⟩, -⟩ := hcond
  have hsplit := List.takeWhile_append_dropWhile (fun c => c != '.') l
  have hip_dec := hip
  rw [List.all_eq_true] at hip_dec
  have hip_nodot : '.' ∉ l.takeWhile (fun c => c != '.') := by
    intro hmem
    have := hip_dec '.' hmem
    rw [isDecChar_dot] at this
    exact absurd this (by simp)
  cases hrest : l.dropWhile (fun c => c != '.') with
  | nil =>
    have hl : l = l.takeWhile (fun c => c != '.') := by
      conv_lhs => rw [← hsplit]
      rw [hrest, List.append_nil]
    constructor
    · rw [List.all_eq_true]
      intro c hc
      rw [hl] at hc
      rw [hip_dec c hc]
      rfl
    · rw [hl, List.count_eq_zero.mpr hip_nodot]
      omega
  | cons c2 tl =>
    have hc2 : c2 = '.' := by
      have := dropWhile_head_false _ l c2 tl hrest
      simpa using this
    subst hc2
    have hfp2 : tl.all isDecChar = true := by
      rw [hrest] at hfp
      simpa using hfp
    have hfp_dec := hfp2
    rw [List.all_eq_true] at hfp_dec
    have hl : l = l.takeWhile (fun c => c != '.') ++ '.' :: tl := by
      conv_lhs => rw [← hsplit]
      rw [hrest]
    constructor
    · rw [List.all_eq_true]
      intro c hc
      rw [hl] at hc
      rcases List.mem_append.mp hc with hc | hc
      · rw [hip_dec c hc]; rfl
      · rcases List.mem_cons.mp hc with rfl | hc
        · simp
        · rw [hfp_dec c hc]; rfl
    · have htl_nodot : '.' ∉ tl := by
        intro hmem
        have := hfp_dec '.' hmem
        rw [isDecChar_dot] at this
        exact absurd this (by simp)
      rw [hl, List.count_append, List.count_eq_zero.mpr hip_nodot, List.count_cons_self,
        List.count_eq_zero.mpr htl_nodot]

/-- C7 (amended): the wei field accepts exactly JavaScript `BigInt` string
syntax, not a digits-only alphabet: digit-only literals are accepted with
their decimal value, the empty literal counts as 0, `0x`-prefixed hex
literals are also accepted, and any literal containing a decimal point
fails; for gwei and ether the accepted alphabet is digits plus at most one
decimal point, and any other character makes the conversion fail. -/
theorem c7_unit_alphabets :
    handleWeiChange "" = some 0 ∧
    (∀ l : List Char, l ≠ [] → l.all isDecChar = true →
      handleWeiChange (String.mk l) = some ((digitsVal 10 l : ℕ) : ℤ)) ∧
    (∀ s : String, '.' ∈ s.toList → handleWeiChange s = none) ∧
    (∀ l : List Char, l ≠ [] → l.all isHexChar = true →
      handleWeiChange (String.mk ('0' :: 'x' :: l)) = some ((digitsVal 16 l : ℕ) : ℤ)) ∧
    (∀ u : EthUnit, u = EthUnit.gwei ∨ u = EthUnit.ether → ∀ s n,
      parseUnit u s = some n →
      s.toList.all (fun c => isDecChar c || c == '.') = true ∧
      s.toList.count '.' ≤ 1) := by
  refine ⟨by decide, ?_, ?_, ?_, ?_⟩
  · intro l hne hdig
    unfold handleWeiChange
    rw [if_neg (by
      intro heq
      have := congrArg String.data heq
      simp only at this
      exact hne this)]
    show jsParseTrimmed (jsTrim l) = _
    rw [jsTrim_eq_self l (by
      intro c hc
      have := List.all_eq_true.mp hdig c hc
      exact jsWhite_eq_false_of_baseCharOk 10 c this)]
    exact jsDec_parse l hne hdig
  · intro s hdot
    unfold handleWeiChange
    rw [if_neg (by
      intro heq
      rw [heq] at hdot
      simp at hdot)]
    show jsParseTrimmed (jsTrim s.toList) = none
    exact jsParseTrimmed_none_of_dot _ (mem_jsTrim_of_mem _ _ hdot jsWhite_dot)
  · intro l hne hhex
    unfold handleWeiChange
    rw [if_neg (string_mk_cons_ne_empty _ _)]
    exact jsHex_parse l hne hhex
  · rintro u (rfl | rfl) s n h
    · exact parseUnitL_alphabet 9 s.toList n h
    · exact parseUnitL_alphabet 18 s.toList n h

/-- C7 counterexample: `"0x10"` contains characters other than decimal
digits, yet the wei conversion accepts it (as hexadecimal 16) instead of
failing. -/
theorem c7_counterexample :
    handleWeiChange "0x10" = some 16 ∧
    ("0x10".toList.all isDecChar) = false := by decide

/-- Witness for C7 at concrete inputs. -/
theorem c7_unit_alphabets_witness :
    handleWeiChange "42" = some 42 ∧ handleWeiChange "4.2" = none ∧
    (parseUnit EthUnit.gwei "1.5" = some 1500000000 ∧
      ("1.5".toList.all (fun c => isDecChar c || c == '.') = true ∧
        "1.5".toList.count '.' ≤ 1)) := by
  refine ⟨?_, ?_, by decide, ?_⟩
  · exact c7_unit_alphabets.2.1 ['4', '2'] (by decide) (by decide)
  · exact c7_unit_alphabets.2.2.1 "4.2" (by decide)
  · exact c7_unit_alphabets.2.2.2.2 EthUnit.gwei (Or.inl rfl) "1.5" 1500000000 (by decide)

/-! ## C8: the ASCII display aid -/

theorem bytesToAsciiL_hexEncode (bs : List ℕ) (hb : ∀ b ∈ bs, b < 256) :
    bytesToAsciiL (hexEncode bs) = bs.map asciiDisplayChar := by
  induction bs with
  | nil => rfl
  | cons b tl ih =>
    have hb1 : b < 256 := hb b (List.mem_cons_self b tl)
    have hb2 : ∀ x ∈ tl, x < 256 := fun x hx => hb x (List.mem_cons_of_mem b hx)
    have henc : hexEncode (b :: tl)
        = digitChar (b / 16) :: digitChar (b % 16) :: hexEncode tl := by
      simp [hexEncode, hexEncodeByte]
    rw [henc]
    simp only [bytesToAsciiL]
    rw [hexCharValD_digitChar (b / 16) (by omega), hexCharValD_digitChar (b % 16) (by omega)]
    have hbyte : 16 * (b / 16) + b % 16 = b := by omega
    rw [hbyte, ih hb2, List.map_cons]

/-- C8: the ASCII loop emits exactly one display character per byte of the
hex input — the character itself for a byte in the printable range
`[32, 126]`, the dot `.` otherwise — and the mapping is lossy (two distinct
byte strings can render identically), so it cannot serve as a round-trip
target. -/
theorem c8_bytesToAscii_display (bs : List ℕ) (hb : ∀ b ∈ bs, b < 256) :
    bytesToAsciiL (hexEncode bs)
      = bs.map (fun b => if 32 ≤ b ∧ b ≤ 126 then Char.ofNat b else Char.ofNat 46) ∧
    (bytesToAsciiL (hexEncode bs)).length = bs.length ∧
    (bytesToAscii "00" = bytesToAscii "01" ∧ ("00" : String) ≠ "01") := by
  have hmain := bytesToAsciiL_hexEncode bs hb
  refine ⟨hmain, ?_, by decide⟩
  rw [hmain, List.length_map]

/-- Witness for C8 at a concrete byte string. -/
theorem c8_bytesToAscii_display_witness :
    (∀ b ∈ [72, 0, 105], b < 256) ∧
    (bytesToAsciiL (hexEncode [72, 0, 105])
      = [72, 0, 105].map (fun b => if 32 ≤ b ∧ b ≤ 126 then Char.ofNat b else Char.ofNat 46) ∧
    (bytesToAsciiL (hexEncode [72, 0, 105])).length = ([72, 0, 105] : List ℕ).length ∧
    (bytesToAscii "00" = bytesToAscii "01" ∧ ("00" : String) ≠ "01")) :=
  ⟨by decide, c8_bytesToAscii_display [72, 0, 105] (by decide)⟩

/-! ## C9: the bisection loop terminates within `N + 1` iterations -/

theorem jmid_eq (low high : ℤ) : jmid low high = (low + high) / 2 :=
  Int.fdiv_eq_ediv _ (by omega)

theorem jmid_bounds (low high : ℤ) (h : low ≤ high) :
    low ≤ jmid low high ∧ jmid low high ≤ high := by
  rw [jmid_eq]
  omega

theorem intervalFuel_sub_left (low high : ℤ) (h : low ≤ high) :
    intervalFuel (jmid low high + 1) high ≤ intervalFuel low high - 1 := by
  have := jmid_bounds low high h
  unfold intervalFuel
  omega

theorem intervalFuel_sub_right (low high : ℤ) (h : low ≤ high) :
    intervalFuel low (jmid low high - 1) ≤ intervalFuel low high - 1 := by
  have := jmid_bounds low high h
  unfold intervalFuel
  omega

theorem intervalFuel_pos (low high : ℤ) (h : low ≤ high) :
    1 ≤ intervalFuel low high := by
  unfold intervalFuel
  omega

theorem bisectAux_steps_le (fetch : ℤ → Option Block) (t : ℤ) :
    ∀ fuel, ∀ low high : ℤ, (bisectAux fetch t fuel low high).2.2 ≤ fuel := by
  intro fuel
  induction fuel with
  | zero => intro low high; simp [bisectAux]
  | succ f ih =>
    intro low high
    simp only [bisectAux]
    split_ifs with hle
    · cases hf : fetch (jmid low high) with
      | none =>
        have := ih low (jmid low high - 1)
        simpa using this
      | some b =>
        by_cases h1 : b.timestamp = t
        · simp [h1]
        · by_cases h2 : b.timestamp < t
          · have := ih (jmid low high + 1) high
            simp only [if_neg h1, if_pos h2]
            simpa using this
          · have := ih low (jmid low high - 1)
            simp only [if_neg h1, if_neg h2]
            simpa using this
    · simp

/-- Any fuel at least the interval width computes the same loop result, so
the cutoff branch of the fuel-indexed embedding is never reached: the loop
genuinely terminates for every fetch behavior. -/
theorem bisectAux_fuel_irrel (fetch : ℤ → Option Block) (t : ℤ) :
    ∀ f1 f2 : ℕ, ∀ low high : ℤ, intervalFuel low high ≤ f1 →
      intervalFuel low high ≤ f2 →
      bisectAux fetch t f1 low high = bisectAux fetch t f2 low high := by
  intro f1
  induction f1 with
  | zero =>
    intro f2 low high h1 h2
    have hlt : ¬low ≤ high := by
      intro hle
      have := intervalFuel_pos low high hle
      omega
    cases f2 with
    | zero => rfl
    | succ f =>
      simp only [bisectAux]
      rw [if_neg hlt]
  | succ f ih =>
    intro f2 low high h1 h2
    by_cases hle : low ≤ high
    · have hpos := intervalFuel_pos low high hle
      cases f2 with
      | zero => omega
      | succ g =>
        have hsl := intervalFuel_sub_left low high hle
        have hsr := intervalFuel_sub_right low high hle
        simp only [bisectAux]
        rw [if_pos hle, if_pos hle]
        cases hf : fetch (jmid low high) with
        | none =>
          rw [ih g low (jmid low high - 1) (by omega) (by omega)]
        | some b =>
          by_cases hb1 : b.timestamp = t
          · simp [hb1]
          · by_cases hb2 : b.timestamp < t
            · simp only [if_neg hb1, if_pos hb2]
              rw [ih g (jmid low high + 1) high (by omega) (by omega)]
            · simp only [if_neg hb1, if_neg hb2]
              rw [ih g low (jmid low high - 1) (by omega) (by omega)]
    · cases f2 with
      | zero => simp only [bisectAux]; rw [if_neg hle]
      | succ g => simp only [bisectAux]; rw [if_neg hle, if_neg hle]

/-- C9: for every latest block number `N ≥ 0`, every target timestamp and
every behavior of the injected fetch (including returning `null` at any
midpoint, which moves `high` to `mid - 1`), every iteration either exits or
strictly shrinks `[low, high]`, so the bisection loop of
`handleTimestampChange` executes at most `N + 1` iterations. -/
theorem c9_bisection_terminates (fetch : ℤ → Option Block) (t N : ℤ) (hN : 0 ≤ N) :
    (bisect fetch t 0 N).2.2 ≤ N.toNat + 1 := by
  have h := bisectAux_steps_le fetch t (intervalFuel 0 N) 0 N
  have hfuel : intervalFuel 0 N = N.toNat + 1 := by
    unfold intervalFuel
    omega
  unfold bisect
  omega

/-- Witness for C9 at a concrete fetch (always `null`) and height. -/
theorem c9_bisection_terminates_witness :
    0 ≤ (5 : ℤ) ∧ (bisect (fun _ => none) 200 0 5).2.2 ≤ (5 : ℤ).toNat + 1 :=
  ⟨by decide, c9_bisection_terminates (fun _ => none) 200 5 (by decide)⟩

/-! ## C1: correctness of the timestamp-to-block search -/

/-- Loop invariant of the bisection over a fully populated monotone chain:
an exact hit returns a block of the chain whose timestamp equals the
target; otherwise the final `high` bounds the target from both sides. -/
theorem bisect_invariant (f : ℤ → ℤ) (N t : ℤ)
    (mono : ∀ i j : ℤ, 0 ≤ i → i ≤ j → j ≤ N → f i ≤ f j) :
    ∀ fuel : ℕ, ∀ low high : ℤ, intervalFuel low high ≤ fuel →
      0 ≤ low → high ≤ N →
      (∀ i : ℤ, 0 ≤ i → i < low → f i < t) →
      (∀ i : ℤ, high < i → i ≤ N → t < f i) →
      (∀ b, (bisectAux (honestChain f N) t fuel low high).1 = some b →
        ∃ m : ℤ, 0 ≤ m ∧ m ≤ N ∧ b = Block.mk m (f m) ∧ f m = t) ∧
      ((bisectAux (honestChain f N) t fuel low high).1 = none →
        (bisectAux (honestChain f N) t fuel low high).2.1 ≤ high ∧
        (∀ i : ℤ, 0 ≤ i →
          i ≤ (bisectAux (honestChain f N) t fuel low high).2.1 → f i < t) ∧
        (∀ i : ℤ, (bisectAux (honestChain f N) t fuel low high).2.1 < i →
          i ≤ N → t < f i)) := by
  intro fuel
  induction fuel with
  | zero =>
    intro low high hfuel hlow hhigh hA hB
    have hlt : high < low := by
      unfold intervalFuel at hfuel
      omega
    constructor
    · intro b heq
      simp [bisectAux] at heq
    · intro _
      exact ⟨le_refl _, fun i h0 hih => hA i h0 (lt_of_le_of_lt hih hlt), hB⟩
  | succ fl ih =>
    intro low high hfuel hlow hhigh hA hB
    by_cases hle : low ≤ high
    · have hmid := jmid_bounds low high hle
      have hfetch : honestChain f N (jmid low high)
          = some (Block.mk (jmid low high) (f (jmid low high))) := by
        unfold honestChain
        rw [if_pos ⟨by omega, by omega⟩]
      simp only [bisectAux]
      rw [if_pos hle, hfetch]
      by_cases hb1 : f (jmid low high) = t
      · simp only [if_pos hb1]
        constructor
        · intro b heq
          simp only [Option.some.injEq] at heq
          exact ⟨jmid low high, by omega, by omega, heq.symm, hb1⟩
        · intro heq
          simp at heq
      · by_cases hb2 : f (jmid low high) < t
        · simp only [if_neg hb1, if_pos hb2]
          have hA2 : ∀ i : ℤ, 0 ≤ i → i < jmid low high + 1 → f i < t := by
            intro i h0 hi
            by_cases hil : i < low
            · exact hA i h0 hil
            · calc f i ≤ f (jmid low high) := mono i _ h0 (by omega) (by omega)
              _ < t := hb2
          have ihh := ih (jmid low high + 1) high
            (by have := intervalFuel_sub_left low high hle; omega)
            (by omega) hhigh hA2 hB
          exact ⟨fun b heq => ihh.1 b heq,
            fun heq => ⟨(ihh.2 heq).1, (ihh.2 heq).2.1, (ihh.2 heq).2.2⟩⟩
        · have hb3 : t < f (jmid low high) := by omega
          simp only [if_neg hb1, if_neg hb2]
          have hB2 : ∀ i : ℤ, jmid low high - 1 < i → i ≤ N → t < f i := by
            intro i hi hiN
            calc t < f (jmid low high) := hb3
            _ ≤ f i := mono _ i (by omega) (by omega) hiN
          have ihh := ih low (jmid low high - 1)
            (by have := intervalFuel_sub_right low high hle; omega)
            hlow (by omega) hA hB2
          exact ⟨fun b heq => ihh.1 b heq,
            fun heq => ⟨by have := (ihh.2 heq).1; omega,
              (ihh.2 heq).2.1, (ihh.2 heq).2.2⟩⟩
    · have hlt : high < low := by omega
      simp only [bisectAux]
      rw [if_neg hle]
      constructor
      · intro b heq
        simp at heq
      · intro _
        exact ⟨le_refl _, fun i h0 hih => hA i h0 (lt_of_le_of_lt hih hlt), hB⟩

theorem blockNumberForTimestamp_some (fetch : ℤ → Option Block) (t latest : ℤ)
    (b : Block) (h : (bisect fetch t 0 latest).1 = some b) :
    blockNumberForTimestamp fetch t latest = some b.number := by
  unfold blockNumberForTimestamp
  rw [h]

theorem blockNumberForTimestamp_none (fetch : ℤ → Option Block) (t latest : ℤ)
    (h : (bisect fetch t 0 latest).1 = none) :
    blockNumberForTimestamp fetch t latest
      = floorFallback fetch t ((bisect fetch t 0 latest).2.1) := by
  unfold blockNumberForTimestamp
  rw [h]

theorem floorFallback_chain (f : ℤ → ℤ) (N t high : ℤ)
    (h0 : 0 ≤ high) (hN : high ≤ N) :
    floorFallback (honestChain f N) t high
      = if f high ≤ t then some high else none := by
  unfold floorFallback honestChain
  rw [if_pos h0, if_pos (show 0 ≤ high ∧ high ≤ N from ⟨h0, hN⟩)]

theorem floorFallback_neg (fetch : ℤ → Option Block) (t high : ℤ)
    (h0 : ¬0 ≤ high) : floorFallback fetch t high = none := by
  unfold floorFallback
  rw [if_neg h0]

/-- C1: over a fully populated chain with non-decreasing timestamps, the
search returns a block whose timestamp equals the target when the bisection
hits one exactly, otherwise the latest block whose timestamp does not
exceed the target, and no block when every timestamp exceeds the target;
in particular over `[(0,100),(1,100),(2,150),(3,200)]` searching 150 yields
block 2, searching 120 yields block 1 (floor, not nearest), and searching
50 yields none. -/
theorem c1_blockNumberForTimestamp_correct :
    (∀ (f : ℤ → ℤ) (t N : ℤ), 0 ≤ N →
      (∀ i j : ℤ, 0 ≤ i → i ≤ j → j ≤ N → f i ≤ f j) →
      (∀ r, blockNumberForTimestamp (honestChain f N) t N = some r →
        0 ≤ r ∧ r ≤ N ∧ f r ≤ t ∧
        (f r = t ∨ ∀ i : ℤ, 0 ≤ i → i ≤ N → f i ≤ t → i ≤ r)) ∧
      (blockNumberForTimestamp (honestChain f N) t N = none →
        ∀ i : ℤ, 0 ≤ i → i ≤ N → t < f i)) ∧
    blockNumberForTimestamp (honestChain exTs 3) 150 3 = some 2 ∧
    blockNumberForTimestamp (honestChain exTs 3) 120 3 = some 1 ∧
    blockNumberForTimestamp (honestChain exTs 3) 50 3 = none := by
  refine ⟨?_, by decide, by decide, by decide⟩
  intro f t N hN mono
  have hinv := bisect_invariant f N t mono (intervalFuel 0 N) 0 N (le_refl _)
    (le_refl 0) (le_refl N) (fun i h0 hi => absurd h0 (by omega))
    (fun i hi hiN => absurd hi (by omega))
  rw [show bisectAux (honestChain f N) t (intervalFuel 0 N) 0 N
    = bisect (honestChain f N) t 0 N from rfl] at hinv
  cases hr1 : (bisect (honestChain f N) t 0 N).1 with
  | some b =>
    obtain ⟨m, hm0, hmN, rfl, hft⟩ := hinv.1 b hr1
    rw [blockNumberForTimestamp_some _ _ _ _ hr1,
      show (Block.mk m (f m)).number = m from rfl]
    constructor
    · intro r heq
      simp only [Option.some.injEq] at heq
      rw [← heq]
      exact ⟨hm0, hmN, le_of_eq hft, Or.inl hft⟩
    · intro heq
      simp at heq
  | none =>
    obtain ⟨hr2N, hAfin, hBfin⟩ := hinv.2 hr1
    rw [blockNumberForTimestamp_none _ _ _ hr1]
    by_cases h0 : 0 ≤ (bisect (honestChain f N) t 0 N).2.1
    · rw [floorFallback_chain f N t _ h0 (by omega)]
      have hts : f ((bisect (honestChain f N) t 0 N).2.1) ≤ t :=
        le_of_lt (hAfin _ h0 (le_refl _))
      rw [if_pos hts]
      constructor
      · intro r heq
        simp only [Option.some.injEq] at heq
        rw [← heq]
        refine ⟨h0, by omega, hts, Or.inr ?_⟩
        intro i hi0 hiN hfi
        by_contra hgt
        exact absurd hfi (not_le.mpr (hBfin i (by omega) hiN))
      · intro heq
        simp at heq
    · rw [floorFallback_neg _ _ _ h0]
      constructor
      · intro r heq
        simp at heq
      · intro heq i hi0 hiN
        exact hBfin i (by omega) hiN

theorem exTs_mono : ∀ i j : ℤ, 0 ≤ i → i ≤ j → j ≤ 3 → exTs i ≤ exTs j := by
  intro i j h1 h2 h3
  unfold exTs
  split_ifs <;> omega

/-- Witness for C1: the general theorem applied to the example chain at
target 120. -/
theorem c1_blockNumberForTimestamp_correct_witness :
    0 ≤ (3 : ℤ) ∧
    ((∀ r, blockNumberForTimestamp (honestChain exTs 3) 120 3 = some r →
        0 ≤ r ∧ r ≤ 3 ∧ exTs r ≤ 120 ∧
        (exTs r = 120 ∨ ∀ i : ℤ, 0 ≤ i → i ≤ 3 → exTs i ≤ 120 → i ≤ r)) ∧
      (blockNumberForTimestamp (honestChain exTs 3) 120 3 = none →
        ∀ i : ℤ, 0 ≤ i → i ≤ 3 → 120 < exTs i)) :=
  ⟨by decide, c1_blockNumberForTimestamp_correct.1 exTs 120 3 (by decide) exTs_mono⟩

/-! ## C4: transport failure versus the empty result -/

/-- C4 (amended): inside the search body a fetch failure propagates (the
bisection aborts on the first rejected fetch), but the component-level
`try`/`catch` around `handleTimestampChange` swallows it into the same
empty block-number field the valid no-match result produces, so the caller
cannot distinguish transport failure from "no block in range". -/
theorem c4_error_swallowed :
    (∀ (ε : Type) (fetch : ℤ → Except ε (Option Block)) (getLatest : Except ε ℤ)
      (t : ℤ) (e : ε), searchBody fetch getLatest t = .error e →
      handleTimestampChange fetch getLatest t = none) ∧
    (∀ (ε : Type) (fetch : ℤ → Except ε (Option Block)) (t : ℤ) (e : ε)
      (fuel : ℕ) (low high : ℤ), low ≤ high → fuel ≠ 0 →
      fetch (jmid low high) = .error e →
      bisectAuxE fetch t fuel low high = .error e) := by
  constructor
  · intro ε fetch getLatest t e h
    unfold handleTimestampChange
    rw [h]
  · intro ε fetch t e fuel low high hle hfuel hfe
    cases fuel with
    | zero => exact absurd rfl hfuel
    | succ f =>
      simp only [bisectAuxE]
      rw [if_pos hle, hfe]

/-- C4 counterexample: with a single-block chain, a fetch that fails makes
the search body reject, yet the handler's output equals the output for a
healthy chain in which no block matches — the error is swallowed into the
same empty outcome. -/
theorem c4_counterexample :
    searchBody (fun _ : ℤ => Except.error true) (Except.ok (0 : ℤ)) 50
      = Except.error true ∧
    handleTimestampChange (fun _ : ℤ => Except.error true) (Except.ok (0 : ℤ)) 50
      = handleTimestampChange
          (fun _ : ℤ => (Except.ok (some (Block.mk 0 100)) : Except Bool (Option Block)))
          (Except.ok (0 : ℤ)) 50 ∧
    handleTimestampChange
        (fun _ : ℤ => (Except.ok (some (Block.mk 0 100)) : Except Bool (Option Block)))
          (Except.ok (0 : ℤ)) 50
      = none :=
  ⟨rfl, rfl, rfl⟩

/-- Witness for C4's amended theorem at a concrete failing fetch. -/
theorem c4_error_swallowed_witness :
    searchBody (fun _ : ℤ => Except.error true) (Except.ok (0 : ℤ)) 50
      = Except.error true ∧
    handleTimestampChange (fun _ : ℤ => Except.error true) (Except.ok (0 : ℤ)) 50
      = none :=
  ⟨rfl, c4_error_swallowed.1 Bool (fun _ => Except.error true)
    (Except.ok 0) 50 true rfl⟩

/-! ## C3: the disassembler is total and covers every input byte -/

theorem disassembleGo_fuel_irrel :
    ∀ f1 f2 : ℕ, ∀ (l : List ℕ) (pc : ℕ), l.length ≤ f1 → l.length ≤ f2 →
      disassembleGo f1 l pc = disassembleGo f2 l pc := by
  intro f1
  induction f1 with
  | zero =>
    intro f2 l pc h1 h2
    have : l = [] := List.eq_nil_of_length_eq_zero (by omega)
    subst this
    cases f2 <;> rfl
  | succ f ih =>
    intro f2 l pc h1 h2
    cases l with
    | nil => cases f2 <;> rfl
    | cons b rest =>
      cases f2 with
      | zero => simp at h2
      | succ g =>
        simp only [disassembleGo]
        congr 1
        refine ih g (rest.drop (pushDataLen b)) _ ?_ ?_ <;>
          simp only [List.length_drop, List.length_cons] at h1 h2 ⊢ <;> omega

theorem disassembleGo_consumed :
    ∀ fuel : ℕ, ∀ (l : List ℕ) (pc : ℕ), l.length ≤ fuel →
      ((disassembleGo fuel l pc).map EvmOp.consumed).sum = l.length := by
  intro fuel
  induction fuel with
  | zero =>
    intro l pc h
    have : l = [] := List.eq_nil_of_length_eq_zero (by omega)
    subst this
    rfl
  | succ f ih =>
    intro l pc h
    cases l with
    | nil => rfl
    | cons b rest =>
      simp only [disassembleGo, List.map_cons, List.sum_cons]
      rw [ih (rest.drop (pushDataLen b)) _ (by
        simp only [List.length_drop, List.length_cons] at h ⊢
        omega)]
      simp only [List.length_drop, List.length_cons, List.length_take]
      omega

theorem disassembleGo_operand :
    ∀ fuel : ℕ, ∀ (l : List ℕ) (pc : ℕ), ∀ o ∈ disassembleGo fuel l pc,
      o.operand.length = pushDataLen o.opcode := by
  intro fuel
  induction fuel with
  | zero => intro l pc o ho; simp [disassembleGo] at ho
  | succ f ih =>
    intro l pc o ho
    cases l with
    | nil => simp [disassembleGo] at ho
    | cons b rest =>
      simp only [disassembleGo, List.mem_cons] at ho
      rcases ho with rfl | ho
      · simp only [List.length_append, List.length_take, List.length_replicate]
        omega
      · exact ih _ _ o ho

/-- C3: `disassemble` is total — for every byte sequence it returns a
finite opcode sequence whose per-instruction consumed bytes (opcode byte
plus actually present operand bytes) sum exactly to the input length; every
`PUSH1..PUSH32` instruction carries its full declared operand width,
zero-padded when truncated at the end of the buffer, and a truncated PUSH
still emits an instruction (a non-empty input never produces an empty
disassembly). -/
theorem c3_disassemble_total (code : List ℕ) :
    ((disassemble code).map EvmOp.consumed).sum = code.length ∧
    (∀ o ∈ disassemble code, o.operand.length = pushDataLen o.opcode) ∧
    (code ≠ [] → disassemble code ≠ []) := by
  refine ⟨disassembleGo_consumed code.length code 0 (le_refl _),
    fun o ho => disassembleGo_operand code.length code 0 o ho, ?_⟩
  intro hne
  cases code with
  | nil => exact absurd rfl hne
  | cons b rest => simp [disassemble, disassembleGo]

/-- Witness for C3 on `PUSH1 0x01; PUSH2` truncated after one operand byte:
the final PUSH2 is still emitted, zero-padded to its declared two bytes,
and the consumed bytes sum to the input length. -/
theorem c3_disassemble_total_witness :
    ((disassemble [96, 1, 97, 170]).map EvmOp.consumed).sum = 4 ∧
    EvmOp.mk 2 97 [170, 0] 2 ∈ disassemble [96, 1, 97, 170] ∧
    (EvmOp.mk 2 97 [170, 0] 2).operand.length = pushDataLen 97 ∧
    disassemble [96, 1, 97, 170] ≠ [] := by
  refine ⟨(c3_disassemble_total [96, 1, 97, 170]).1, by decide, ?_, ?_⟩
  · exact (c3_disassemble_total [96, 1, 97, 170]).2.1 (EvmOp.mk 2 97 [170, 0] 2) (by decide)
  · exact (c3_disassemble_total [96, 1, 97, 170]).2.2 (by decide)

/-! ## C2: selector collisions are surfaced as ambiguous -/

/-- C2: whenever two or more function fragments share the calldata's 4-byte
selector under the signature hash, `decodeCall` reports the match as
ambiguous and surfaces exactly the set of colliding function fragments —
it never decodes against one arbitrarily chosen fragment. -/
theorem c2_decodeCall_ambiguous (hash : String → List ℕ) (frags : List AbiFragment)
    (calldata : List ℕ) (h4 : ¬calldata.length < 4)
    (hcoll : 2 ≤ (matchingFragments hash frags calldata).length) :
    decodeCall hash frags calldata
      = .ambiguous (matchingFragments hash frags calldata) ∧
    ∀ f, f ∈ matchingFragments hash frags calldata ↔
      (f ∈ frags ∧ f.kind = FragKind.fn ∧
        selectorBytes hash f = callSelector calldata) := by
  constructor
  · unfold decodeCall
    rw [if_neg h4]
    cases hm : matchingFragments hash frags calldata with
    | nil => rw [hm] at hcoll; simp at hcoll
    | cons a tl =>
      cases tl with
      | nil => rw [hm] at hcoll; simp at hcoll
      | cons b tl2 => rfl
  · intro f
    unfold matchingFragments
    rw [List.mem_filter]
    simp only [Bool.and_eq_true, beq_iff_eq]

/-- Witness for C2: two distinct zero-parameter function fragments whose
signatures collide under an (injected) constant hash are both surfaced. -/
theorem c2_decodeCall_ambiguous_witness :
    ¬([0, 0, 0, 0] : List ℕ).length < 4 ∧
    2 ≤ (matchingFragments (fun _ => [0, 0, 0, 0])
      [AbiFragment.mk FragKind.fn "collate" [], AbiFragment.mk FragKind.fn "burn" ["uint256"]]
      [0, 0, 0, 0]).length ∧
    decodeCall (fun _ => [0, 0, 0, 0])
      [AbiFragment.mk FragKind.fn "collate" [], AbiFragment.mk FragKind.fn "burn" ["uint256"]]
      [0, 0, 0, 0]
      = DecodeCallResult.ambiguous
          [AbiFragment.mk FragKind.fn "collate" [],
            AbiFragment.mk FragKind.fn "burn" ["uint256"]] := by
  refine ⟨by decide, by decide, ?_⟩
  have h := c2_decodeCall_ambiguous (fun _ => [0, 0, 0, 0])
    [AbiFragment.mk FragKind.fn "collate" [], AbiFragment.mk FragKind.fn "burn" ["uint256"]]
    [0, 0, 0, 0] (by decide) (by decide)
  rw [h.1]
  rfl

end BlockView
